import Mathlib

/-! TLV493D 3D magnetic sensor driver.

A shallow embedding of `TLV493D.cpp`: the register decoders, the unit
conversions, the full-circle arctangent and the `update` measurement cycle,
followed by the properties established about them.

Modelling conventions.

* A C++ `int` is a Lean `Int`; a `byte` is a `Fin 256`, promoted to `Int`
  where the source passes it to an `int` parameter or uses it in an
  expression.
* A C++ `double` is a Lean real number: `atan` is `Real.arctan`, `M_PI` is
  `Real.pi`, and a decimal literal such as `0.098` is the exact decimal.
  This is the exact evaluation; it has no rounding.
* Where rounding decides a property, the same code is evaluated in binary
  floating point (the definitions ending in `_fl`): every arithmetic
  operation, every decimal literal and the library arctangent is rounded to
  nearest, ties to even, to a significand of `p` bits (24 for the 32-bit
  `double` of the AVR target, 53 for an IEEE double). The exponent range is
  not bounded, so overflow, underflow, infinities and NaN are outside the
  model.
* A function whose control can reach its closing brace without a `return`
  yields an `Option`, with `none` standing for that fall-through.
* The bus transfer (`I2c.read`, `I2c.receive`) is an input: the seven bytes
  received in one cycle are the argument `rx` of `update`.
-/

/-- The object state of the class `TLV493D`: power pin, bus address, read
buffer (ten bytes, as cleared by the constructor) and the eight reading
fields. -/
structure TLV493D where
  m_iPwrPin : Int
  m_bAddr : Fin 256
  m_aBuffer : Fin 10 → Fin 256
  m_dBx : ℝ
  m_dBy : ℝ
  m_dBz : ℝ
  m_dTemp : ℝ
  m_dPhi_xy : ℝ
  m_dPhi_yz : ℝ
  m_dPhi_xz : ℝ
  m_dMag_2 : ℝ

namespace TLV493D

/-! ## Constants taken from the platform headers -/

/-- Arduino binary literal `B00000011` (`binary.h`). -/
def B00000011 : Int := 3

/-- Arduino binary literal `B11110000` (`binary.h`). -/
def B11110000 : Int := 240

/-- Arduino binary literal `B00001111` (`binary.h`). -/
def B00001111 : Int := 15

/-- The constant `M_PI` of `math.h`, taken as the exact real number. -/
noncomputable def M_PI : ℝ := Real.pi

/-- The constant `M_PI_2` of `math.h`, taken as the exact real number. -/
noncomputable def M_PI_2 : ℝ := Real.pi / 2

/-- Integral promotion of a C++ `bool` used as an operand of an integer
operator: `true` is 1 and `false` is 0. -/
def boolToInt (p : Bool) : Int := if p then 1 else 0

/-! ## Register decoding (`TLV493D.cpp`, lines 181-259) -/

/-- Source `decodeX`:
`ans = (a << 4) | (((b & B11110000) >> 4) & B00001111)`, then
`if (ans >= 2048) ans = ans - 4096`. -/
def decodeX (a b : Int) : Int :=
  let ans := Int.lor (a <<< (4 : Int)) (Int.land ((Int.land b B11110000) >>> (4 : Int)) B00001111)
  if ans ≥ 2048 then ans - 4096 else ans

/-- Source `decodeY`: `ans = (a << 4) | (b & B00001111)`, then
`if (ans >= 2048) ans = ans - 4096`. -/
def decodeY (a b : Int) : Int :=
  let ans := Int.lor (a <<< (4 : Int)) (Int.land b B00001111)
  if ans ≥ 2048 then ans - 4096 else ans

/-- Source `decodeZ`: `ans = (a << 4) | (b & B00001111)`, then
`if (ans >= 2048) ans = ans - 4096`. -/
def decodeZ (a b : Int) : Int :=
  let ans := Int.lor (a <<< (4 : Int)) (Int.land b B00001111)
  if ans ≥ 2048 then ans - 4096 else ans

/-- Source `decodeT`: `a &= B11110000; ans = (a << 4) | b`, then
`if (ans >= 2048) ans -= 4096`. -/
def decodeT (a b : Int) : Int :=
  let a1 := Int.land a B11110000
  let ans := Int.lor (a1 <<< (4 : Int)) b
  if ans ≥ 2048 then ans - 4096 else ans

/-- The sign fixup as the specification words it: a 12-bit composite `v` is
kept when `v < 2048` and replaced by `v - 4096` otherwise. -/
def signFixup (v : Int) : Int := if v < 2048 then v else v - 4096

/-! ## Unit conversion (`TLV493D.cpp`, lines 267-281) -/

/-- Source `convertToMag`: `return a * 0.098;`. -/
noncomputable def convertToMag (a : Int) : ℝ := (a : ℝ) * 0.098

/-- Source `convertToCelsius`: `return (a - 320) * 1.1;`, the subtraction
being an `int` subtraction, taken here without overflow. It is the function
of the source wherever `a - 320` fits the `int` type, as it does for every
decoded code; `convertToCelsius16` below is the evaluation with a 16-bit
`int`. -/
noncomputable def convertToCelsius (a : Int) : ℝ := ((a - 320 : Int) : ℝ) * 1.1

/-! ## Full-circle arctangent (`TLV493D.cpp`, lines 24-45) -/

/-- Source `atan2_remaped`: a chain of nine `if` / `else if` tests, each with
its own `return`, and no final `else`; `none` is the fall-through past the
last test. -/
noncomputable def atan2_remaped (x y : ℝ) : Option ℝ :=
  if x = 0 ∧ y = 0 then some 0
  else if x > 0 ∧ y = 0 then some 0
  else if x > 0 ∧ y > 0 then some (Real.arctan (y / x))
  else if x = 0 ∧ y > 0 then some M_PI_2
  else if x < 0 ∧ y > 0 then some (M_PI + Real.arctan (y / x))
  else if x < 0 ∧ y = 0 then some M_PI
  else if x < 0 ∧ y < 0 then some (M_PI + Real.arctan (y / x))
  else if x = 0 ∧ y < 0 then some (3 * M_PI_2)
  else if x > 0 ∧ y < 0 then some (2 * M_PI + Real.arctan (y / x))
  else none

/-! ## Session state (`TLV493D.cpp`, lines 53-75 and 133-172) -/

/-- Source constructor `TLV493D::TLV493D(pwrPin)`: address 0, all eight
reading fields 0, read buffer cleared. -/
noncomputable def construct (pwrPin : Int) : TLV493D :=
  { m_iPwrPin := pwrPin
    m_bAddr := 0
    m_aBuffer := fun _ => 0
    m_dBx := 0
    m_dBy := 0
    m_dBz := 0
    m_dTemp := 0
    m_dPhi_xy := 0
    m_dPhi_yz := 0
    m_dPhi_xz := 0
    m_dMag_2 := 0 }

/-- The receive loop of `update` (lines 139-142): buffer entries 0 to 6 are
overwritten by the seven received bytes, entries 7 to 9 are kept. -/
def storeBlock (buf : Fin 10 → Fin 256) (rx : Fin 7 → Fin 256) : Fin 10 → Fin 256 :=
  fun i => if h : i.val < 7 then rx ⟨i.val, h⟩ else buf i

/-- A buffer entry promoted to `int`. -/
def bufInt (s : TLV493D) (i : Fin 10) : Int := ((s.m_aBuffer i).val : Int)

/-- Source `update`. The status test is written
`m_aBuffer[3] & B00000011 != 0`; in C++ the operator `!=` binds tighter than
`&`, so the tested value is `m_aBuffer[3] & (B00000011 != 0)`. The result is
the returned `bool` with the state after the call. -/
noncomputable def update (s : TLV493D) (rx : Fin 7 → Fin 256) : Option (Bool × TLV493D) :=
  let s0 : TLV493D := { s with m_aBuffer := storeBlock s.m_aBuffer rx }
  if Int.land (bufInt s0 3) (boolToInt (B00000011 != 0)) ≠ 0 then
    some (false, s0)
  else
    let x := decodeX (bufInt s0 0) (bufInt s0 4)
    let y := decodeY (bufInt s0 1) (bufInt s0 4)
    let z := decodeZ (bufInt s0 2) (bufInt s0 5)
    let t := decodeT (bufInt s0 3) (bufInt s0 6)
    let s1 : TLV493D := { s0 with m_dBx := convertToMag x }
    let s2 : TLV493D := { s1 with m_dBy := convertToMag y }
    let s3 : TLV493D := { s2 with m_dBz := convertToMag z }
    let s4 : TLV493D := { s3 with m_dTemp := convertToCelsius t }
    (atan2_remaped s4.m_dBx s4.m_dBy).bind fun phi_xy =>
    let s5 : TLV493D := { s4 with m_dPhi_xy := phi_xy }
    (atan2_remaped s5.m_dBy s5.m_dBz).bind fun phi_yz =>
    let s6 : TLV493D := { s5 with m_dPhi_yz := phi_yz }
    (atan2_remaped s6.m_dBx s6.m_dBz).bind fun phi_xz =>
    let s7 : TLV493D := { s6 with m_dPhi_xz := phi_xz }
    let s8 : TLV493D :=
      { s7 with m_dMag_2 := s7.m_dBx * s7.m_dBx + s7.m_dBy * s7.m_dBy + s7.m_dBz * s7.m_dBz }
    some (true, s8)

/-- A register block in which only bit 1 of byte index 3 is set. -/
def blockStatus2 : Fin 7 → Fin 256 := ![0, 0, 0, 2, 0, 0, 0]

/-- A register block in which bit 0 of byte index 3 is set. -/
def blockStatus1 : Fin 7 → Fin 256 := ![0, 0, 0, 1, 0, 0, 0]

/-- A session state holding a nonzero reading, as left by an earlier
successful cycle. -/
noncomputable def heldReading : TLV493D :=
  { construct 13 with
    m_dBx := 3
    m_dBy := 4
    m_dBz := 0
    m_dTemp := 22
    m_dPhi_xy := 1
    m_dPhi_yz := 0
    m_dPhi_xz := 0
    m_dMag_2 := 25 }

/-- The state `heldReading` after the receive loop has stored `blockStatus1`. -/
noncomputable def heldReadingStored : TLV493D :=
  { heldReading with m_aBuffer := storeBlock heldReading.m_aBuffer blockStatus1 }

/-- The all-zero register block. -/
def blockZero : Fin 7 → Fin 256 := ![0, 0, 0, 0, 0, 0, 0]

/-- A finite sequence of `update` calls, one per received block, threading
the session state; the returned flags are dropped. -/
noncomputable def updates (s : TLV493D) : List (Fin 7 → Fin 256) → Option TLV493D
  | [] => some s
  | rx :: rest => (update s rx).bind fun r => updates r.2 rest

/-- The range property of a reading: the three planar angles lie in
[0, 2 * pi) and the squared magnitude is not negative. -/
def ReadingInRange (s : TLV493D) : Prop :=
  (0 ≤ s.m_dPhi_xy ∧ s.m_dPhi_xy < 2 * Real.pi) ∧
  (0 ≤ s.m_dPhi_yz ∧ s.m_dPhi_yz < 2 * Real.pi) ∧
  (0 ≤ s.m_dPhi_xz ∧ s.m_dPhi_xz < 2 * Real.pi) ∧
  0 ≤ s.m_dMag_2

/-- A register block with all seven bytes nonzero and the status bits of
byte index 3 clear. -/
def blockSample : Fin 7 → Fin 256 := ![0x12, 0xF3, 0x80, 0x14, 0xA5, 0x0C, 0x2D]

/-! ## The branch table of `atan2_remaped` (`TLV493D.cpp`, lines 28-44) -/

/-- The nine tests of `atan2_remaped`, in source order. -/
def atan2_test (x y : ℝ) : Fin 9 → Prop :=
  ![x = 0 ∧ y = 0,
    x > 0 ∧ y = 0,
    x > 0 ∧ y > 0,
    x = 0 ∧ y > 0,
    x < 0 ∧ y > 0,
    x < 0 ∧ y = 0,
    x < 0 ∧ y < 0,
    x = 0 ∧ y < 0,
    x > 0 ∧ y < 0]

/-- The expression returned by each of the nine branches, in source order. -/
noncomputable def atan2_value (x y : ℝ) : Fin 9 → ℝ :=
  ![0,
    0,
    Real.arctan (y / x),
    M_PI_2,
    M_PI + Real.arctan (y / x),
    M_PI,
    M_PI + Real.arctan (y / x),
    3 * M_PI_2,
    2 * M_PI + Real.arctan (y / x)]

/-- Whether the returned expression of a branch evaluates the quotient
`y / x`. -/
def atan2_divides : Fin 9 → Bool :=
  ![false, false, true, false, true, false, true, false, true]

/-! ## Evaluation with a 16-bit `int` -/

/-- Reduction of an integer to the 16-bit two's-complement range
[-32768, 32767]. -/
def wrap16 (v : Int) : Int := (v + 32768) % 65536 - 32768

/-- The integer intermediates of `decodeX`, in evaluation order: the shift,
the mask, the right shift, the remask, the OR and, when taken, the
subtraction. -/
def decodeX_intermediates (a b : Int) : List Int :=
  let t1 := a <<< (4 : Int)
  let t2 := Int.land b B11110000
  let t3 := t2 >>> (4 : Int)
  let t4 := Int.land t3 B00001111
  let ans := Int.lor t1 t4
  [t1, t2, t3, t4, ans] ++ (if ans ≥ 2048 then [ans - 4096] else [])

/-- The integer intermediates of `decodeY`: the shift, the mask, the OR and,
when taken, the subtraction. -/
def decodeY_intermediates (a b : Int) : List Int :=
  let t1 := a <<< (4 : Int)
  let t2 := Int.land b B00001111
  let ans := Int.lor t1 t2
  [t1, t2, ans] ++ (if ans ≥ 2048 then [ans - 4096] else [])

/-- The integer intermediates of `decodeZ`: the shift, the mask, the OR and,
when taken, the subtraction. -/
def decodeZ_intermediates (a b : Int) : List Int :=
  let t1 := a <<< (4 : Int)
  let t2 := Int.land b B00001111
  let ans := Int.lor t1 t2
  [t1, t2, ans] ++ (if ans ≥ 2048 then [ans - 4096] else [])

/-- The integer intermediates of `decodeT`: the mask, the shift, the OR and,
when taken, the subtraction. -/
def decodeT_intermediates (a b : Int) : List Int :=
  let a1 := Int.land a B11110000
  let t1 := a1 <<< (4 : Int)
  let ans := Int.lor t1 b
  [a1, t1, ans] ++ (if ans ≥ 2048 then [ans - 4096] else [])

/-- Source `decodeX` with every integer operation reduced to 16 bits. -/
def decodeX16 (a b : Int) : Int :=
  let t1 := wrap16 (a <<< (4 : Int))
  let t2 := wrap16 (Int.land b B11110000)
  let t3 := wrap16 (t2 >>> (4 : Int))
  let t4 := wrap16 (Int.land t3 B00001111)
  let ans := wrap16 (Int.lor t1 t4)
  if ans ≥ 2048 then wrap16 (ans - 4096) else ans

/-- Source `decodeY` with every integer operation reduced to 16 bits. -/
def decodeY16 (a b : Int) : Int :=
  let t1 := wrap16 (a <<< (4 : Int))
  let t2 := wrap16 (Int.land b B00001111)
  let ans := wrap16 (Int.lor t1 t2)
  if ans ≥ 2048 then wrap16 (ans - 4096) else ans

/-- Source `decodeZ` with every integer operation reduced to 16 bits. -/
def decodeZ16 (a b : Int) : Int :=
  let t1 := wrap16 (a <<< (4 : Int))
  let t2 := wrap16 (Int.land b B00001111)
  let ans := wrap16 (Int.lor t1 t2)
  if ans ≥ 2048 then wrap16 (ans - 4096) else ans

/-- Source `decodeT` with every integer operation reduced to 16 bits. -/
def decodeT16 (a b : Int) : Int :=
  let a1 := wrap16 (Int.land a B11110000)
  let t1 := wrap16 (a1 <<< (4 : Int))
  let ans := wrap16 (Int.lor t1 b)
  if ans ≥ 2048 then wrap16 (ans - 4096) else ans

/-- Source `convertToCelsius` with the `int` subtraction reduced to 16 bits. -/
noncomputable def convertToCelsius16 (a : Int) : ℝ := ((wrap16 (a - 320) : Int) : ℝ) * 1.1

/-! ## Evaluation in binary floating point -/

/-- Rounding of a real number to the nearest integer, a tie going to the even
neighbour. -/
noncomputable def roundEven (r : ℝ) : ℤ :=
  if r - ⌊r⌋ < 1 / 2 then ⌊r⌋
  else if 1 / 2 < r - ⌊r⌋ then ⌊r⌋ + 1
  else if Even ⌊r⌋ then ⌊r⌋ else ⌊r⌋ + 1

/-- The unit in the last place of a positive real `v` for a binary format of
precision `p` with unbounded exponent: `2 ^ (e + 1 - p)` where
`2 ^ e ≤ v < 2 ^ (e + 1)`. -/
noncomputable def ulp (p : ℕ) (v : ℝ) : ℝ := (2 : ℝ) ^ (Int.log 2 v + 1 - (p : ℤ))

/-- Rounding of a magnitude (a real that is not negative) to precision `p`,
to nearest, ties to even. -/
noncomputable def roundMag (p : ℕ) (v : ℝ) : ℝ := (roundEven (v / ulp p v) : ℝ) * ulp p v

/-- Rounding to nearest, ties to even, of a real number to the binary
floating-point format of precision `p` (sign and magnitude, exponent range
unbounded). -/
noncomputable def roundNE (p : ℕ) (v : ℝ) : ℝ :=
  if 0 ≤ v then roundMag p v else -roundMag p (-v)

/-- The constant `M_PI` of `math.h`, the decimal literal
`3.14159265358979323846`, as a value of the format. -/
noncomputable def M_PI_fl (p : ℕ) : ℝ := roundNE p 3.14159265358979323846

/-- The constant `M_PI_2` of `math.h`, the decimal literal
`1.57079632679489661923`, as a value of the format. -/
noncomputable def M_PI_2_fl (p : ℕ) : ℝ := roundNE p 1.57079632679489661923

/-- The expression `2.0 * M_PI` evaluated in the format. -/
noncomputable def twoPi_fl (p : ℕ) : ℝ := roundNE p (2 * M_PI_fl p)

/-- The library function `atan` on a value of the format, taken as the
arctangent rounded to the format. -/
noncomputable def atan_fl (p : ℕ) (t : ℝ) : ℝ := roundNE p (Real.arctan t)

/-- Source `atan2_remaped` evaluated in binary floating point of precision
`p`: the comparisons with `0.0` are exact, and the quotient, the library
arctangent, the products by a constant and the sums are each rounded to the
format. The exponent range is not bounded. -/
noncomputable def atan2_remaped_fl (p : ℕ) (x y : ℝ) : Option ℝ :=
  if x = 0 ∧ y = 0 then some 0
  else if x > 0 ∧ y = 0 then some 0
  else if x > 0 ∧ y > 0 then some (atan_fl p (roundNE p (y / x)))
  else if x = 0 ∧ y > 0 then some (M_PI_2_fl p)
  else if x < 0 ∧ y > 0 then some (roundNE p (M_PI_fl p + atan_fl p (roundNE p (y / x))))
  else if x < 0 ∧ y = 0 then some (M_PI_fl p)
  else if x < 0 ∧ y < 0 then some (roundNE p (M_PI_fl p + atan_fl p (roundNE p (y / x))))
  else if x = 0 ∧ y < 0 then some (roundNE p (3 * M_PI_2_fl p))
  else if x > 0 ∧ y < 0 then some (roundNE p (twoPi_fl p + atan_fl p (roundNE p (y / x))))
  else none

/-- Masking a byte with `0xF0`, shifting right by four and masking with
`0x0F` leaves its upper nibble. -/
theorem nat_upperNibble (b : Nat) (hb : b < 256) : ((b &&& 240) >>> 4) &&& 15 = b / 16 := by
  interval_cases b <;> rfl

/-- Masking with `0x0F` leaves the lower nibble. -/
theorem nat_lowerNibble (b : Nat) : b &&& 15 = b % 16 :=
  Nat.and_pow_two_sub_one_eq_mod b 4

/-- A value shifted left by four has its low four bits free, so OR-ing in a
nibble adds it. -/
theorem nat_shl4_or (a n : Nat) (hn : n < 16) : (a <<< 4) ||| n = 16 * a + n := by
  rw [Nat.shiftLeft_eq, Nat.mul_comm]
  exact (Nat.mul_add_lt_is_or (show n < 2 ^ 4 from hn) a).symm

/-- Masking a byte with `0xF0` and shifting left by four puts its upper
nibble at bits 8 to 11. -/
theorem nat_statusNibble (a : Nat) (ha : a < 256) : (a &&& 240) <<< 4 = 2 ^ 8 * (a / 16) := by
  interval_cases a <;> rfl

/-- The 12-bit composite built by `decodeX` from two bytes. -/
theorem compositeX (a b : Nat) (hb : b < 256) :
    Int.lor ((a : Int) <<< (4 : Int))
        (Int.land ((Int.land (b : Int) B11110000) >>> (4 : Int)) B00001111)
      = ((16 * a + b / 16 : Nat) : Int) := by
  have h1 : ((a : Int) <<< (4 : Int)) = ((a <<< 4 : Nat) : Int) := Int.shiftLeft_coe_nat a 4
  have h2 : Int.land (b : Int) B11110000 = ((b &&& 240 : Nat) : Int) := rfl
  have h3 : (((b &&& 240 : Nat) : Int) >>> (4 : Int)) = (((b &&& 240) >>> 4 : Nat) : Int) :=
    Int.shiftRight_coe_nat _ 4
  have h4 : Int.land ((((b &&& 240) >>> 4 : Nat) : Int)) B00001111
      = ((((b &&& 240) >>> 4) &&& 15 : Nat) : Int) := rfl
  rw [h1, h2, h3, h4, nat_upperNibble b hb]
  show (((a <<< 4) ||| (b / 16) : Nat) : Int) = _
  rw [nat_shl4_or a (b / 16) (by omega)]

/-- The 12-bit composite built by `decodeY` and `decodeZ` from two bytes. -/
theorem compositeYZ (a b : Nat) :
    Int.lor ((a : Int) <<< (4 : Int)) (Int.land (b : Int) B00001111)
      = ((16 * a + b % 16 : Nat) : Int) := by
  have h1 : ((a : Int) <<< (4 : Int)) = ((a <<< 4 : Nat) : Int) := Int.shiftLeft_coe_nat a 4
  have h2 : Int.land (b : Int) B00001111 = ((b &&& 15 : Nat) : Int) := rfl
  rw [h1, h2, nat_lowerNibble b]
  show (((a <<< 4) ||| (b % 16) : Nat) : Int) = _
  rw [nat_shl4_or a (b % 16) (by omega)]

/-- The 12-bit composite built by `decodeT` from two bytes. -/
theorem compositeT (a b : Nat) (ha : a < 256) (hb : b < 256) :
    Int.lor ((Int.land (a : Int) B11110000) <<< (4 : Int)) (b : Int)
      = ((256 * (a / 16) + b : Nat) : Int) := by
  have h1 : Int.land (a : Int) B11110000 = ((a &&& 240 : Nat) : Int) := rfl
  have h2 : (((a &&& 240 : Nat) : Int) <<< (4 : Int)) = (((a &&& 240) <<< 4 : Nat) : Int) :=
    Int.shiftLeft_coe_nat _ 4
  rw [h1, h2, nat_statusNibble a ha]
  show (((2 ^ 8 * (a / 16)) ||| b : Nat) : Int) = _
  rw [← Nat.mul_add_lt_is_or (show b < 2 ^ 8 from hb) (a / 16)]

/-- On bytes, `decodeX` is the sign fixup of `16 * a + b / 16`, over the
naturals. -/
theorem decodeX_nat (a b : Nat) (hb : b < 256) :
    decodeX (a : Int) (b : Int)
      = if 2048 ≤ 16 * a + b / 16 then ((16 * a + b / 16 : Nat) : Int) - 4096
        else ((16 * a + b / 16 : Nat) : Int) := by
  unfold decodeX
  simp only [compositeX a b hb]
  split_ifs <;> first | rfl | omega

/-- On bytes, `decodeY` is the sign fixup of `16 * a + b % 16`, over the
naturals. -/
theorem decodeY_nat (a b : Nat) :
    decodeY (a : Int) (b : Int)
      = if 2048 ≤ 16 * a + b % 16 then ((16 * a + b % 16 : Nat) : Int) - 4096
        else ((16 * a + b % 16 : Nat) : Int) := by
  unfold decodeY
  simp only [compositeYZ a b]
  split_ifs <;> first | rfl | omega

/-- On bytes, `decodeZ` is the sign fixup of `16 * a + b % 16`, over the
naturals. -/
theorem decodeZ_nat (a b : Nat) :
    decodeZ (a : Int) (b : Int)
      = if 2048 ≤ 16 * a + b % 16 then ((16 * a + b % 16 : Nat) : Int) - 4096
        else ((16 * a + b % 16 : Nat) : Int) := by
  unfold decodeZ
  simp only [compositeYZ a b]
  split_ifs <;> first | rfl | omega

/-- On bytes, `decodeT` is the sign fixup of `256 * (a / 16) + b`, over the
naturals. -/
theorem decodeT_nat (a b : Nat) (ha : a < 256) (hb : b < 256) :
    decodeT (a : Int) (b : Int)
      = if 2048 ≤ 256 * (a / 16) + b then ((256 * (a / 16) + b : Nat) : Int) - 4096
        else ((256 * (a / 16) + b : Nat) : Int) := by
  unfold decodeT
  simp only [compositeT a b ha hb]
  split_ifs <;> first | rfl | omega

/-- An `int` holding a byte value is the cast of a natural below 256. -/
theorem byte_eq_natCast (a : Int) (h0 : 0 ≤ a) (h1 : a ≤ 255) :
    ∃ n : Nat, n < 256 ∧ a = (n : Int) :=
  ⟨a.toNat, by omega, by omega⟩

/-! ## Register decoding: range, composition and sign -/

/-- C3: for bytes `a`, `b` in [0, 255] each of `decodeX`, `decodeY`, `decodeZ`
and `decodeT` returns an integer in [-2048, 2047], so none returns a value in
[2048, 4095]. -/
theorem decode_range (a b : Int) (ha0 : 0 ≤ a) (ha1 : a ≤ 255) (hb0 : 0 ≤ b) (hb1 : b ≤ 255) :
    (-2048 ≤ decodeX a b ∧ decodeX a b ≤ 2047) ∧
    (-2048 ≤ decodeY a b ∧ decodeY a b ≤ 2047) ∧
    (-2048 ≤ decodeZ a b ∧ decodeZ a b ≤ 2047) ∧
    (-2048 ≤ decodeT a b ∧ decodeT a b ≤ 2047) := by
  obtain ⟨m, hm, rfl⟩ := byte_eq_natCast a ha0 ha1
  obtain ⟨n, hn, rfl⟩ := byte_eq_natCast b hb0 hb1
  rw [decodeX_nat m n hn, decodeY_nat m n, decodeZ_nat m n, decodeT_nat m n hm hn]
  refine ⟨?_, ?_, ?_, ?_⟩ <;> split_ifs <;> omega

/-- Witness for C3 at the bytes `0xFF`, `0xFF`. -/
theorem decode_range_witness :
    ((0 : Int) ≤ 255 ∧ (255 : Int) ≤ 255) ∧
    ((-2048 ≤ decodeX 255 255 ∧ decodeX 255 255 ≤ 2047) ∧
     (-2048 ≤ decodeY 255 255 ∧ decodeY 255 255 ≤ 2047) ∧
     (-2048 ≤ decodeZ 255 255 ∧ decodeZ 255 255 ≤ 2047) ∧
     (-2048 ≤ decodeT 255 255 ∧ decodeT 255 255 ≤ 2047)) :=
  ⟨by decide, decode_range 255 255 (by decide) (by decide) (by decide) (by decide)⟩

/-- C4: for bytes `a`, `b` in [0, 255], `decodeX a b` is the sign fixup of
`16 * a + floor (b / 16)`: the high byte gives bits 4 to 11 and the upper
nibble of the companion byte gives bits 0 to 3. -/
theorem decodeX_eq_signFixup (a b : Int) (ha0 : 0 ≤ a) (ha1 : a ≤ 255)
    (hb0 : 0 ≤ b) (hb1 : b ≤ 255) :
    decodeX a b = signFixup (16 * a + b / 16) := by
  obtain ⟨m, _, rfl⟩ := byte_eq_natCast a ha0 ha1
  obtain ⟨n, hn, rfl⟩ := byte_eq_natCast b hb0 hb1
  rw [decodeX_nat m n hn]
  unfold signFixup
  split_ifs <;> omega

/-- Witness for C4 at the bytes `0x80`, `0x3C`: the composite is 2051 and the
code is -2045. -/
theorem decodeX_eq_signFixup_witness :
    ((0 : Int) ≤ 128 ∧ (128 : Int) ≤ 255 ∧ (0 : Int) ≤ 60 ∧ (60 : Int) ≤ 255) ∧
    decodeX 128 60 = signFixup (16 * 128 + 60 / 16) ∧ decodeX 128 60 = -2045 :=
  ⟨by decide, decodeX_eq_signFixup 128 60 (by decide) (by decide) (by decide) (by decide),
    by decide⟩

/-- C5: for bytes `a`, `b` in [0, 255], `decodeY a b` and `decodeZ a b` agree
and both are the sign fixup of `16 * a + (b mod 16)`: the lower nibble of the
companion byte is taken unshifted. -/
theorem decodeY_decodeZ_eq_signFixup (a b : Int) (ha0 : 0 ≤ a) (ha1 : a ≤ 255)
    (hb0 : 0 ≤ b) (hb1 : b ≤ 255) :
    decodeY a b = decodeZ a b ∧
    decodeY a b = signFixup (16 * a + b % 16) ∧
    decodeZ a b = signFixup (16 * a + b % 16) := by
  obtain ⟨m, _, rfl⟩ := byte_eq_natCast a ha0 ha1
  obtain ⟨n, _, rfl⟩ := byte_eq_natCast b hb0 hb1
  rw [decodeY_nat m n, decodeZ_nat m n]
  unfold signFixup
  refine ⟨rfl, ?_, ?_⟩ <;> split_ifs <;> omega

/-- Witness for C5 at the bytes `0x80`, `0x3C`: the composite is 2060 and the
code is -2036. -/
theorem decodeY_decodeZ_eq_signFixup_witness :
    ((0 : Int) ≤ 128 ∧ (128 : Int) ≤ 255 ∧ (0 : Int) ≤ 60 ∧ (60 : Int) ≤ 255) ∧
    (decodeY 128 60 = decodeZ 128 60 ∧
     decodeY 128 60 = signFixup (16 * 128 + 60 % 16) ∧
     decodeZ 128 60 = signFixup (16 * 128 + 60 % 16)) ∧ decodeY 128 60 = -2036 :=
  ⟨by decide,
    decodeY_decodeZ_eq_signFixup 128 60 (by decide) (by decide) (by decide) (by decide),
    by decide⟩

/-- C6: for bytes `s`, `b` in [0, 255], `decodeT s b` is the sign fixup of
`256 * floor (s / 16) + b`: the high nibble of the status byte gives bits 8
to 11 and the whole low byte gives bits 0 to 7. -/
theorem decodeT_eq_signFixup (s b : Int) (hs0 : 0 ≤ s) (hs1 : s ≤ 255)
    (hb0 : 0 ≤ b) (hb1 : b ≤ 255) :
    decodeT s b = signFixup (256 * (s / 16) + b) := by
  obtain ⟨m, hm, rfl⟩ := byte_eq_natCast s hs0 hs1
  obtain ⟨n, hn, rfl⟩ := byte_eq_natCast b hb0 hb1
  rw [decodeT_nat m n hm hn]
  unfold signFixup
  split_ifs <;> omega

/-- Witness for C6 at the bytes `0x93`, `0x3C`: the composite is 2364 and the
code is -1732. -/
theorem decodeT_eq_signFixup_witness :
    ((0 : Int) ≤ 147 ∧ (147 : Int) ≤ 255 ∧ (0 : Int) ≤ 60 ∧ (60 : Int) ≤ 255) ∧
    decodeT 147 60 = signFixup (256 * (147 / 16) + 60) ∧ decodeT 147 60 = -1732 :=
  ⟨by decide, decodeT_eq_signFixup 147 60 (by decide) (by decide) (by decide) (by decide),
    by decide⟩

/-- C7: for bytes `a`, `b` in [0, 255], `decodeX a b` is negative exactly when
`a >= 0x80`; `decodeX 0x00 0x00 = 0`; `decodeX 0x7F 0xF0 = 2047` and no value
of `decodeX` is larger; `decodeX 0x80 0x00 = -2048` and no value of `decodeX`
is smaller. -/
theorem decodeX_sign_boundary (a b : Int) (ha0 : 0 ≤ a) (ha1 : a ≤ 255)
    (hb0 : 0 ≤ b) (hb1 : b ≤ 255) :
    (decodeX a b < 0 ↔ 128 ≤ a) ∧
    decodeX 0 0 = 0 ∧
    (decodeX 127 240 = 2047 ∧ decodeX a b ≤ decodeX 127 240) ∧
    (decodeX 128 0 = -2048 ∧ decodeX 128 0 ≤ decodeX a b) := by
  have e0 : decodeX 0 0 = 0 := by decide
  have e1 : decodeX 127 240 = 2047 := by decide
  have e2 : decodeX 128 0 = -2048 := by decide
  obtain ⟨m, _, rfl⟩ := byte_eq_natCast a ha0 ha1
  obtain ⟨n, hn, rfl⟩ := byte_eq_natCast b hb0 hb1
  rw [e1, e2]
  refine ⟨?_, e0, ⟨rfl, ?_⟩, ⟨rfl, ?_⟩⟩ <;> rw [decodeX_nat m n hn] <;> split_ifs <;> omega

/-- Witness for C7 at the bytes `0x80`, `0xF0`: the code is -2033, negative
with bit 7 of the high byte set. -/
theorem decodeX_sign_boundary_witness :
    ((0 : Int) ≤ 128 ∧ (128 : Int) ≤ 255 ∧ (0 : Int) ≤ 240 ∧ (240 : Int) ≤ 255) ∧
    ((decodeX 128 240 < 0 ↔ (128 : Int) ≤ 128) ∧
     decodeX 0 0 = 0 ∧
     (decodeX 127 240 = 2047 ∧ decodeX 128 240 ≤ decodeX 127 240) ∧
     (decodeX 128 0 = -2048 ∧ decodeX 128 0 ≤ decodeX 128 240)) ∧
    decodeX 128 240 = -2033 :=
  ⟨by decide, decodeX_sign_boundary 128 240 (by decide) (by decide) (by decide) (by decide),
    by decide⟩

/-! ## Full-circle arctangent: the nine branches -/

/-- Branch 1 (line 28): the origin. -/
theorem atan2_remaped_origin : atan2_remaped 0 0 = some 0 := by
  simp [atan2_remaped]

/-- Branch 2 (line 30): the positive x half-axis. -/
theorem atan2_remaped_posX {x : ℝ} (hx : 0 < x) : atan2_remaped x 0 = some 0 := by
  simp [atan2_remaped, hx]

/-- Branch 3 (line 32): the first quadrant. -/
theorem atan2_remaped_q1 {x y : ℝ} (hx : 0 < x) (hy : 0 < y) :
    atan2_remaped x y = some (Real.arctan (y / x)) := by
  simp [atan2_remaped, hx, hy, hx.ne', hy.ne']

/-- Branch 4 (line 34): the positive y half-axis. -/
theorem atan2_remaped_posY {y : ℝ} (hy : 0 < y) : atan2_remaped 0 y = some M_PI_2 := by
  simp [atan2_remaped, hy, hy.ne']

/-- Branch 5 (line 36): the second quadrant. -/
theorem atan2_remaped_q2 {x y : ℝ} (hx : x < 0) (hy : 0 < y) :
    atan2_remaped x y = some (M_PI + Real.arctan (y / x)) := by
  simp [atan2_remaped, hx, hy, hx.ne, hy.ne', hx.not_lt]

/-- Branch 6 (line 38): the negative x half-axis. -/
theorem atan2_remaped_negX {x : ℝ} (hx : x < 0) : atan2_remaped x 0 = some M_PI := by
  simp [atan2_remaped, hx, hx.ne, hx.not_lt]

/-- Branch 7 (line 40): the third quadrant. -/
theorem atan2_remaped_q3 {x y : ℝ} (hx : x < 0) (hy : y < 0) :
    atan2_remaped x y = some (M_PI + Real.arctan (y / x)) := by
  simp [atan2_remaped, hx, hy, hx.ne, hy.ne, hx.not_lt, hy.not_lt]

/-- Branch 8 (line 42): the negative y half-axis. -/
theorem atan2_remaped_negY {y : ℝ} (hy : y < 0) : atan2_remaped 0 y = some (3 * M_PI_2) := by
  simp [atan2_remaped, hy, hy.ne, hy.not_lt]

/-- Branch 9 (line 44): the fourth quadrant. -/
theorem atan2_remaped_q4 {x y : ℝ} (hx : 0 < x) (hy : y < 0) :
    atan2_remaped x y = some (2 * M_PI + Real.arctan (y / x)) := by
  simp [atan2_remaped, hx, hy, hx.ne', hy.ne, hx.not_lt, hy.not_lt]

/-- The arctangent of a positive number is positive. -/
theorem arctan_pos_of_pos {t : ℝ} (ht : 0 < t) : 0 < Real.arctan t := by
  have h := Real.arctan_strictMono ht
  rwa [Real.arctan_zero] at h

/-- The arctangent of a negative number is negative. -/
theorem arctan_neg_of_neg {t : ℝ} (ht : t < 0) : Real.arctan t < 0 := by
  have h := Real.arctan_strictMono ht
  rwa [Real.arctan_zero] at h

/-- Every value of `atan2_remaped` lies in [0, 2 * pi), and there always is
one. -/
theorem atan2_remaped_mem (x y : ℝ) :
    ∃ θ : ℝ, atan2_remaped x y = some θ ∧ 0 ≤ θ ∧ θ < 2 * Real.pi := by
  have hpi := Real.pi_pos
  rcases lt_trichotomy x 0 with hx | hx | hx <;> rcases lt_trichotomy y 0 with hy | hy | hy
  · have h1 := arctan_pos_of_pos (div_pos_of_neg_of_neg hy hx)
    have h2 := Real.arctan_lt_pi_div_two (y / x)
    exact ⟨_, atan2_remaped_q3 hx hy, by unfold M_PI; linarith, by unfold M_PI; linarith⟩
  · subst hy
    exact ⟨_, atan2_remaped_negX hx, by unfold M_PI; linarith, by unfold M_PI; linarith⟩
  · have h1 := arctan_neg_of_neg (div_neg_of_pos_of_neg hy hx)
    have h2 := Real.neg_pi_div_two_lt_arctan (y / x)
    exact ⟨_, atan2_remaped_q2 hx hy, by unfold M_PI; linarith, by unfold M_PI; linarith⟩
  · subst hx
    exact ⟨_, atan2_remaped_negY hy, by unfold M_PI_2; linarith, by unfold M_PI_2; linarith⟩
  · subst hx; subst hy
    exact ⟨_, atan2_remaped_origin, le_refl 0, by linarith⟩
  · subst hx
    exact ⟨_, atan2_remaped_posY hy, by unfold M_PI_2; linarith, by unfold M_PI_2; linarith⟩
  · have h1 := arctan_neg_of_neg (div_neg_of_neg_of_pos hy hx)
    have h2 := Real.neg_pi_div_two_lt_arctan (y / x)
    exact ⟨_, atan2_remaped_q4 hx hy, by unfold M_PI; linarith, by unfold M_PI; linarith⟩
  · subst hy
    exact ⟨_, atan2_remaped_posX hx, le_refl 0, by linarith⟩
  · have h1 := arctan_pos_of_pos (div_pos hy hx)
    have h2 := Real.arctan_lt_pi_div_two (y / x)
    exact ⟨_, atan2_remaped_q1 hx hy, by linarith, by linarith⟩

/-- For `x` nonzero, the radius times the cosine and sine of
`arctan (y / x)` are `|x|` and `|x| * (y / x)`. -/
theorem radius_mul_arctan (x y : ℝ) (hx : x ≠ 0) :
    Real.sqrt (x ^ 2 + y ^ 2) * Real.cos (Real.arctan (y / x)) = |x| ∧
    Real.sqrt (x ^ 2 + y ^ 2) * Real.sin (Real.arctan (y / x)) = |x| * (y / x) := by
  have hpos : 0 < 1 + (y / x) ^ 2 := by positivity
  have hs : Real.sqrt (1 + (y / x) ^ 2) ≠ 0 := (Real.sqrt_pos.mpr hpos).ne'
  have hr : Real.sqrt (x ^ 2 + y ^ 2) = |x| * Real.sqrt (1 + (y / x) ^ 2) := by
    have e : x ^ 2 + y ^ 2 = x ^ 2 * (1 + (y / x) ^ 2) := by
      field_simp
    rw [e, Real.sqrt_mul (sq_nonneg x), Real.sqrt_sq_eq_abs]
  rw [Real.cos_arctan, Real.sin_arctan, hr]
  generalize Real.sqrt (1 + (y / x) ^ 2) = s at hs
  generalize y / x = t
  constructor
  · field_simp
  · field_simp
    ring

/-! ## Full-circle arctangent: range, polar form and axis values -/

/-- C9: for real `x`, `y` not both zero, the value `θ` of `atan2_remaped x y`
is the planar angle of the vector: with `r = sqrt (x^2 + y^2)`,
`x = r * cos θ` and `y = r * sin θ`. -/
theorem atan2_remaped_polar (x y : ℝ) (h : ¬ (x = 0 ∧ y = 0)) :
    ∃ θ : ℝ, atan2_remaped x y = some θ ∧
      x = Real.sqrt (x ^ 2 + y ^ 2) * Real.cos θ ∧
      y = Real.sqrt (x ^ 2 + y ^ 2) * Real.sin θ := by
  have c32 : Real.cos (3 * (Real.pi / 2)) = 0 := by
    have e : 3 * (Real.pi / 2) = Real.pi / 2 + Real.pi := by ring
    rw [e, Real.cos_add_pi, Real.cos_pi_div_two, neg_zero]
  have s32 : Real.sin (3 * (Real.pi / 2)) = -1 := by
    have e : 3 * (Real.pi / 2) = Real.pi / 2 + Real.pi := by ring
    rw [e, Real.sin_add_pi, Real.sin_pi_div_two]
  have cpi (t : ℝ) : Real.cos (Real.pi + t) = -Real.cos t := by
    rw [add_comm, Real.cos_add_pi]
  have spi (t : ℝ) : Real.sin (Real.pi + t) = -Real.sin t := by
    rw [add_comm, Real.sin_add_pi]
  have c2pi (t : ℝ) : Real.cos (2 * Real.pi + t) = Real.cos t := by
    rw [add_comm, Real.cos_add_two_pi]
  have s2pi (t : ℝ) : Real.sin (2 * Real.pi + t) = Real.sin t := by
    rw [add_comm, Real.sin_add_two_pi]
  have axisX : Real.sqrt (x ^ 2 + (0 : ℝ) ^ 2) = |x| := by
    rw [zero_pow two_ne_zero, add_zero, Real.sqrt_sq_eq_abs]
  have axisY : Real.sqrt ((0 : ℝ) ^ 2 + y ^ 2) = |y| := by
    rw [zero_pow two_ne_zero, zero_add, Real.sqrt_sq_eq_abs]
  rcases lt_trichotomy x 0 with hx | hx | hx <;> rcases lt_trichotomy y 0 with hy | hy | hy
  · obtain ⟨hc, hs⟩ := radius_mul_arctan x y hx.ne
    refine ⟨_, atan2_remaped_q3 hx hy, ?_, ?_⟩
    · rw [M_PI, cpi, mul_neg, hc, abs_of_neg hx, neg_neg]
    · rw [M_PI, spi, mul_neg, hs, abs_of_neg hx, neg_mul, neg_neg, mul_div_cancel₀ y hx.ne]
  · subst hy
    refine ⟨_, atan2_remaped_negX hx, ?_, ?_⟩
    · rw [M_PI, Real.cos_pi, axisX, abs_of_neg hx]; ring
    · rw [M_PI, Real.sin_pi, mul_zero]
  · obtain ⟨hc, hs⟩ := radius_mul_arctan x y hx.ne
    refine ⟨_, atan2_remaped_q2 hx hy, ?_, ?_⟩
    · rw [M_PI, cpi, mul_neg, hc, abs_of_neg hx, neg_neg]
    · rw [M_PI, spi, mul_neg, hs, abs_of_neg hx, neg_mul, neg_neg, mul_div_cancel₀ y hx.ne]
  · subst hx
    refine ⟨_, atan2_remaped_negY hy, ?_, ?_⟩
    · rw [M_PI_2, c32, mul_zero]
    · rw [M_PI_2, s32, axisY, abs_of_neg hy]; ring
  · exact absurd ⟨hx, hy⟩ h
  · subst hx
    refine ⟨_, atan2_remaped_posY hy, ?_, ?_⟩
    · rw [M_PI_2, Real.cos_pi_div_two, mul_zero]
    · rw [M_PI_2, Real.sin_pi_div_two, axisY, abs_of_pos hy, mul_one]
  · obtain ⟨hc, hs⟩ := radius_mul_arctan x y hx.ne'
    refine ⟨_, atan2_remaped_q4 hx hy, ?_, ?_⟩
    · rw [M_PI, c2pi, hc, abs_of_pos hx]
    · rw [M_PI, s2pi, hs, abs_of_pos hx, mul_div_cancel₀ y hx.ne']
  · subst hy
    refine ⟨_, atan2_remaped_posX hx, ?_, ?_⟩
    · rw [Real.cos_zero, axisX, abs_of_pos hx, mul_one]
    · rw [Real.sin_zero, mul_zero]
  · obtain ⟨hc, hs⟩ := radius_mul_arctan x y hx.ne'
    refine ⟨_, atan2_remaped_q1 hx hy, ?_, ?_⟩
    · rw [hc, abs_of_pos hx]
    · rw [hs, abs_of_pos hx, mul_div_cancel₀ y hx.ne']

/-- Witness for C9 at the second-quadrant point `(-1, 1)`. -/
theorem atan2_remaped_polar_witness :
    ¬ ((-1 : ℝ) = 0 ∧ (1 : ℝ) = 0) ∧
    ∃ θ : ℝ, atan2_remaped (-1) 1 = some θ ∧
      (-1 : ℝ) = Real.sqrt ((-1) ^ 2 + 1 ^ 2) * Real.cos θ ∧
      (1 : ℝ) = Real.sqrt ((-1) ^ 2 + 1 ^ 2) * Real.sin θ :=
  ⟨by norm_num, atan2_remaped_polar (-1) 1 (by norm_num)⟩

/-- C10: on the axes `atan2_remaped` returns exact constants: 0 on the
positive x half-axis, `pi / 2` on the positive y half-axis, `pi` on the
negative x half-axis, `3 * pi / 2` on the negative y half-axis, and 0 at the
origin. -/
theorem atan2_remaped_axes :
    (∀ x : ℝ, 0 < x → atan2_remaped x 0 = some 0) ∧
    (∀ y : ℝ, 0 < y → atan2_remaped 0 y = some (Real.pi / 2)) ∧
    (∀ x : ℝ, x < 0 → atan2_remaped x 0 = some Real.pi) ∧
    (∀ y : ℝ, y < 0 → atan2_remaped 0 y = some (3 * Real.pi / 2)) ∧
    atan2_remaped 0 0 = some 0 := by
  refine ⟨fun x hx => atan2_remaped_posX hx, fun y hy => ?_, fun x hx => ?_, fun y hy => ?_,
    atan2_remaped_origin⟩
  · rw [atan2_remaped_posY hy, M_PI_2]
  · rw [atan2_remaped_negX hx, M_PI]
  · rw [atan2_remaped_negY hy, M_PI_2]
    congr 1
    ring

/-- Witness for C10 at the four unit axis points and the origin. -/
theorem atan2_remaped_axes_witness :
    ((0 : ℝ) < 1 ∧ (-1 : ℝ) < 0) ∧
    atan2_remaped 1 0 = some 0 ∧
    atan2_remaped 0 1 = some (Real.pi / 2) ∧
    atan2_remaped (-1) 0 = some Real.pi ∧
    atan2_remaped 0 (-1) = some (3 * Real.pi / 2) ∧
    atan2_remaped 0 0 = some 0 :=
  ⟨by norm_num,
    atan2_remaped_axes.1 1 one_pos,
    atan2_remaped_axes.2.1 1 one_pos,
    atan2_remaped_axes.2.2.1 (-1) (by norm_num),
    atan2_remaped_axes.2.2.2.1 (-1) (by norm_num),
    atan2_remaped_axes.2.2.2.2⟩

/-! ## The measurement cycle `update` -/

/-- The value tested by the status check of `update` is bit 0 of byte index 3
of the received block. -/
theorem update_tested_value (s : TLV493D) (rx : Fin 7 → Fin 256) :
    Int.land (bufInt { s with m_aBuffer := storeBlock s.m_aBuffer rx } 3)
        (boolToInt (B00000011 != 0))
      = (((rx 3).val % 2 : Nat) : Int) := by
  have h1 : bufInt { s with m_aBuffer := storeBlock s.m_aBuffer rx } 3 = ((rx 3).val : Int) := rfl
  have h2 : boolToInt (B00000011 != 0) = ((1 : Nat) : Int) := rfl
  rw [h1, h2]
  show (((rx 3).val &&& 1 : Nat) : Int) = _
  rw [Nat.and_one_is_mod]

/-- When bit 0 of byte index 3 is set, `update` stores the block, returns
`false` and does nothing else. -/
theorem update_bit0_set (s : TLV493D) (rx : Fin 7 → Fin 256) (h : (rx 3).val % 2 = 1) :
    update s rx = some (false, { s with m_aBuffer := storeBlock s.m_aBuffer rx }) := by
  unfold update
  simp only [update_tested_value, h]
  rfl

/-- When bit 0 of byte index 3 is clear, `update` returns `true` with all
eight reading fields recomputed from the received block. -/
theorem update_bit0_clear (s : TLV493D) (rx : Fin 7 → Fin 256) (h : (rx 3).val % 2 = 0) :
    ∃ pxy pyz pxz : ℝ,
      atan2_remaped (convertToMag (decodeX (rx 0).val (rx 4).val))
        (convertToMag (decodeY (rx 1).val (rx 4).val)) = some pxy ∧
      atan2_remaped (convertToMag (decodeY (rx 1).val (rx 4).val))
        (convertToMag (decodeZ (rx 2).val (rx 5).val)) = some pyz ∧
      atan2_remaped (convertToMag (decodeX (rx 0).val (rx 4).val))
        (convertToMag (decodeZ (rx 2).val (rx 5).val)) = some pxz ∧
      update s rx = some (true,
        { s with
          m_aBuffer := storeBlock s.m_aBuffer rx
          m_dBx := convertToMag (decodeX (rx 0).val (rx 4).val)
          m_dBy := convertToMag (decodeY (rx 1).val (rx 4).val)
          m_dBz := convertToMag (decodeZ (rx 2).val (rx 5).val)
          m_dTemp := convertToCelsius (decodeT (rx 3).val (rx 6).val)
          m_dPhi_xy := pxy
          m_dPhi_yz := pyz
          m_dPhi_xz := pxz
          m_dMag_2 :=
            convertToMag (decodeX (rx 0).val (rx 4).val)
                * convertToMag (decodeX (rx 0).val (rx 4).val)
              + convertToMag (decodeY (rx 1).val (rx 4).val)
                * convertToMag (decodeY (rx 1).val (rx 4).val)
              + convertToMag (decodeZ (rx 2).val (rx 5).val)
                * convertToMag (decodeZ (rx 2).val (rx 5).val) }) := by
  obtain ⟨pxy, hxy, -⟩ := atan2_remaped_mem (convertToMag (decodeX (rx 0).val (rx 4).val))
    (convertToMag (decodeY (rx 1).val (rx 4).val))
  obtain ⟨pyz, hyz, -⟩ := atan2_remaped_mem (convertToMag (decodeY (rx 1).val (rx 4).val))
    (convertToMag (decodeZ (rx 2).val (rx 5).val))
  obtain ⟨pxz, hxz, -⟩ := atan2_remaped_mem (convertToMag (decodeX (rx 0).val (rx 4).val))
    (convertToMag (decodeZ (rx 2).val (rx 5).val))
  refine ⟨pxy, pyz, pxz, hxy, hyz, hxz, ?_⟩
  have b0 : bufInt { s with m_aBuffer := storeBlock s.m_aBuffer rx } 0 = ((rx 0).val : Int) := rfl
  have b1 : bufInt { s with m_aBuffer := storeBlock s.m_aBuffer rx } 1 = ((rx 1).val : Int) := rfl
  have b2 : bufInt { s with m_aBuffer := storeBlock s.m_aBuffer rx } 2 = ((rx 2).val : Int) := rfl
  have b3 : bufInt { s with m_aBuffer := storeBlock s.m_aBuffer rx } 3 = ((rx 3).val : Int) := rfl
  have b4 : bufInt { s with m_aBuffer := storeBlock s.m_aBuffer rx } 4 = ((rx 4).val : Int) := rfl
  have b5 : bufInt { s with m_aBuffer := storeBlock s.m_aBuffer rx } 5 = ((rx 5).val : Int) := rfl
  have b6 : bufInt { s with m_aBuffer := storeBlock s.m_aBuffer rx } 6 = ((rx 6).val : Int) := rfl
  have hc : Int.land ((rx 3).val : Int) (boolToInt (B00000011 != 0)) = 0 :=
    (update_tested_value s rx).trans (by rw [h]; rfl)
  unfold update
  simp only [b0, b1, b2, b3, b4, b5, b6, hxy, hyz, hxz]
  rw [if_neg (not_not.mpr hc)]
  rfl

/-- Whatever the state and the block, `update` returns. -/
theorem update_returns (s : TLV493D) (rx : Fin 7 → Fin 256) :
    ∃ r : Bool × TLV493D, update s rx = some r := by
  rcases Nat.mod_two_eq_zero_or_one (rx 3).val with h | h
  · obtain ⟨_, _, _, _, _, _, hu⟩ := update_bit0_clear s rx h
    exact ⟨_, hu⟩
  · exact ⟨_, update_bit0_set s rx h⟩

/-- C1, evaluated on the code: for the block `blockStatus2`, whose byte index 3
is `0x02` (so `block[3] & 0x03` is nonzero), `update` returns `true` from
every state and never `false`. -/
theorem update_status_bit1_returns_true (s : TLV493D) :
    Int.land ((blockStatus2 3).val : Int) 3 ≠ 0 ∧
    (∃ s' : TLV493D, update s blockStatus2 = some (true, s')) ∧
    ∀ s' : TLV493D, update s blockStatus2 ≠ some (false, s') := by
  obtain ⟨_, _, _, _, _, _, hu⟩ := update_bit0_clear s blockStatus2 (by decide)
  refine ⟨by decide, ⟨_, hu⟩, fun s' hs => ?_⟩
  rw [hu] at hs
  simp at hs

/-- C2: whenever `update` returns `false`, whatever the prior state and the
block, the eight reading fields have the values they had before the call. -/
theorem update_false_keeps_reading (s s' : TLV493D) (rx : Fin 7 → Fin 256)
    (h : update s rx = some (false, s')) :
    s'.m_dBx = s.m_dBx ∧ s'.m_dBy = s.m_dBy ∧ s'.m_dBz = s.m_dBz ∧
    s'.m_dTemp = s.m_dTemp ∧ s'.m_dPhi_xy = s.m_dPhi_xy ∧ s'.m_dPhi_yz = s.m_dPhi_yz ∧
    s'.m_dPhi_xz = s.m_dPhi_xz ∧ s'.m_dMag_2 = s.m_dMag_2 := by
  rcases Nat.mod_two_eq_zero_or_one (rx 3).val with h3 | h3
  · obtain ⟨_, _, _, _, _, _, hu⟩ := update_bit0_clear s rx h3
    rw [hu] at h
    simp at h
  · rw [update_bit0_set s rx h3] at h
    have e : s' = { s with m_aBuffer := storeBlock s.m_aBuffer rx } :=
      (congrArg Prod.snd (Option.some.inj h)).symm
    subst e
    exact ⟨rfl, rfl, rfl, rfl, rfl, rfl, rfl, rfl⟩

/-- Witness for C2: from the state `heldReading` the block `blockStatus1`
makes `update` return `false`, and the held reading is kept. -/
theorem update_false_keeps_reading_witness :
    update heldReading blockStatus1 = some (false, heldReadingStored) ∧
    (heldReadingStored.m_dBx = heldReading.m_dBx ∧
     heldReadingStored.m_dBy = heldReading.m_dBy ∧
     heldReadingStored.m_dBz = heldReading.m_dBz ∧
     heldReadingStored.m_dTemp = heldReading.m_dTemp ∧
     heldReadingStored.m_dPhi_xy = heldReading.m_dPhi_xy ∧
     heldReadingStored.m_dPhi_yz = heldReading.m_dPhi_yz ∧
     heldReadingStored.m_dPhi_xz = heldReading.m_dPhi_xz ∧
     heldReadingStored.m_dMag_2 = heldReading.m_dMag_2) :=
  ⟨update_bit0_set heldReading blockStatus1 (by decide),
    update_false_keeps_reading heldReading heldReadingStored blockStatus1
      (update_bit0_set heldReading blockStatus1 (by decide))⟩

/-! ## Unit conversion -/

/-- Reduction to 16 bits leaves a value of the 16-bit range unchanged. -/
theorem wrap16_id (v : Int) (h : -32768 ≤ v ∧ v ≤ 32767) : wrap16 v = v := by
  unfold wrap16
  omega


/-- C13: for every integer code, `convertToMag code` is `code * 0.098` with
0.098 the exact decimal 98/1000; `convertToMag 1 = 0.098` and
`convertToMag (-2048) = -200.704`. -/
theorem convertToMag_exact :
    (∀ code : Int, convertToMag code = (code : ℝ) * (98 / 1000)) ∧
    convertToMag 1 = 98 / 1000 ∧
    convertToMag (-2048) = -(200704 / 1000) := by
  refine ⟨fun code => ?_, ?_, ?_⟩
  · unfold convertToMag
    norm_num
  · unfold convertToMag
    norm_num
  · unfold convertToMag
    norm_num

/-- Without overflow of the `int` subtraction, `convertToCelsius code` is
`(code - 320) * 1.1` with 1.1 the exact decimal 11/10;
`convertToCelsius 320 = 0` and `convertToCelsius 0 = -352`. -/
theorem convertToCelsius_unbounded :
    (∀ code : Int, convertToCelsius code = ((code : ℝ) - 320) * (11 / 10)) ∧
    convertToCelsius 320 = 0 ∧
    convertToCelsius 0 = -352 := by
  refine ⟨fun code => ?_, ?_, ?_⟩
  · unfold convertToCelsius
    push_cast
    norm_num
  · unfold convertToCelsius
    norm_num
  · unfold convertToCelsius
    norm_num

/-- C14, the claim as stated fails on a 16-bit `int`: for the code -32768 the
subtraction `code - 320` wraps to 32448, so `convertToCelsius` returns
`32448 * 1.1` and not `(-32768 - 320) * 1.1`. -/
theorem convertToCelsius16_overflow :
    wrap16 (-32768 - 320) = 32448 ∧
    convertToCelsius16 (-32768) = 32448 * (11 / 10) ∧
    convertToCelsius16 (-32768) ≠ (((-32768 : Int) : ℝ) - 320) * (11 / 10) := by
  have hw : wrap16 (-32768 - 320) = 32448 := by decide
  refine ⟨hw, ?_, ?_⟩
  · unfold convertToCelsius16
    rw [hw]
    norm_num
  · unfold convertToCelsius16
    rw [hw]
    norm_num

/-- C14, amended: with a 16-bit `int`, for every code from -32448 to 32767
(the codes for which `code - 320` fits the `int` type),
`convertToCelsius code` is `(code - 320) * 1.1` with 1.1 the exact decimal
11/10; `convertToCelsius 320 = 0` and `convertToCelsius 0 = -352`. -/
theorem convertToCelsius16_exact (code : Int) (h : -32448 ≤ code ∧ code ≤ 32767) :
    convertToCelsius16 code = ((code : ℝ) - 320) * (11 / 10) ∧
    convertToCelsius16 320 = 0 ∧
    convertToCelsius16 0 = -352 := by
  have h0 : wrap16 (320 - 320) = 0 := by decide
  have h1 : wrap16 (0 - 320) = -320 := by decide
  refine ⟨?_, ?_, ?_⟩
  · unfold convertToCelsius16
    rw [wrap16_id (code - 320) ⟨by omega, by omega⟩]
    push_cast
    norm_num
  · unfold convertToCelsius16
    rw [h0]
    norm_num
  · unfold convertToCelsius16
    rw [h1]
    norm_num

/-- Witness for C14, amended, at the lowest admitted code -32448, where
`code - 320` is the smallest 16-bit `int`. -/
theorem convertToCelsius16_exact_witness :
    ((-32448 : Int) ≤ -32448 ∧ (-32448 : Int) ≤ 32767) ∧
    convertToCelsius16 (-32448) = (((-32448 : Int) : ℝ) - 320) * (11 / 10) ∧
    convertToCelsius16 320 = 0 ∧
    convertToCelsius16 0 = -352 :=
  ⟨by decide, convertToCelsius16_exact (-32448) (by decide)⟩

/-! ## Register decoding: independence of the unused bits, and bijectivity -/

/-- C15: for bytes `a`, `b`, `b2`, `s`, `s2` in [0, 255], `decodeX a b`
depends on `b` only through its upper nibble, `decodeY a b` and `decodeZ a b`
depend on `b` only through its lower nibble, and `decodeT s b` depends on `s`
only through its upper nibble. -/
theorem decode_reads_own_bits (a b b2 s s2 : Int)
    (ha : 0 ≤ a ∧ a ≤ 255) (hb : 0 ≤ b ∧ b ≤ 255) (hb2 : 0 ≤ b2 ∧ b2 ≤ 255)
    (hs : 0 ≤ s ∧ s ≤ 255) (hs2 : 0 ≤ s2 ∧ s2 ≤ 255) :
    (b / 16 = b2 / 16 → decodeX a b = decodeX a b2) ∧
    (b % 16 = b2 % 16 → decodeY a b = decodeY a b2 ∧ decodeZ a b = decodeZ a b2) ∧
    (s / 16 = s2 / 16 → decodeT s b = decodeT s2 b) := by
  obtain ⟨m, _, rfl⟩ := byte_eq_natCast a ha.1 ha.2
  obtain ⟨n, hn, rfl⟩ := byte_eq_natCast b hb.1 hb.2
  obtain ⟨n2, hn2, rfl⟩ := byte_eq_natCast b2 hb2.1 hb2.2
  obtain ⟨k, hk, rfl⟩ := byte_eq_natCast s hs.1 hs.2
  obtain ⟨k2, hk2, rfl⟩ := byte_eq_natCast s2 hs2.1 hs2.2
  refine ⟨fun h => ?_, fun h => ⟨?_, ?_⟩, fun h => ?_⟩
  · have e : n / 16 = n2 / 16 := by omega
    rw [decodeX_nat m n hn, decodeX_nat m n2 hn2, e]
  · have e : n % 16 = n2 % 16 := by omega
    rw [decodeY_nat m n, decodeY_nat m n2, e]
  · have e : n % 16 = n2 % 16 := by omega
    rw [decodeZ_nat m n, decodeZ_nat m n2, e]
  · have e : k / 16 = k2 / 16 := by omega
    rw [decodeT_nat k n hk hn, decodeT_nat k2 n hk2 hn, e]

/-- Witness for C15: `0x4A` and `0x43` share the upper nibble, `0x4A` and
`0x9A` the lower one, and the status bytes `0x93` and `0x90` the upper one. -/
theorem decode_reads_own_bits_witness :
    ((74 : Int) / 16 = 67 / 16 ∧ (74 : Int) % 16 = 154 % 16 ∧ (147 : Int) / 16 = 144 / 16) ∧
    decodeX 200 74 = decodeX 200 67 ∧
    (decodeY 200 74 = decodeY 200 154 ∧ decodeZ 200 74 = decodeZ 200 154) ∧
    decodeT 147 74 = decodeT 144 74 :=
  ⟨by decide,
    (decode_reads_own_bits 200 74 67 147 144 (by decide) (by decide) (by decide) (by decide)
      (by decide)).1 (by decide),
    (decode_reads_own_bits 200 74 154 147 144 (by decide) (by decide) (by decide) (by decide)
      (by decide)).2.1 (by decide),
    (decode_reads_own_bits 200 74 67 147 144 (by decide) (by decide) (by decide) (by decide)
      (by decide)).2.2 (by decide)⟩

/-- C17: decoding is a bijection between 12-bit register contents and signed
codes. For `v` in [-2048, 2047] and `u = v mod 4096`,
`decodeX (u / 16) (16 * (u mod 16)) = v` and `decodeY (u / 16) (u mod 16) = v`;
and for bytes `a`, `a2`, `b`, `b2`, equal values of `decodeX` force `a = a2`
and equal upper nibbles of `b` and `b2`. -/
theorem decode_bijective (v a a2 b b2 : Int) (hv : -2048 ≤ v ∧ v ≤ 2047)
    (ha : 0 ≤ a ∧ a ≤ 255) (ha2 : 0 ≤ a2 ∧ a2 ≤ 255)
    (hb : 0 ≤ b ∧ b ≤ 255) (hb2 : 0 ≤ b2 ∧ b2 ≤ 255) :
    decodeX (v % 4096 / 16) (16 * (v % 4096 % 16)) = v ∧
    decodeY (v % 4096 / 16) (v % 4096 % 16) = v ∧
    (decodeX a b = decodeX a2 b2 → a = a2 ∧ b / 16 = b2 / 16) := by
  refine ⟨?_, ?_, ?_⟩
  · obtain ⟨p, _, hp⟩ := byte_eq_natCast (v % 4096 / 16) (by omega) (by omega)
    obtain ⟨q, hq, hq2⟩ := byte_eq_natCast (16 * (v % 4096 % 16)) (by omega) (by omega)
    rw [hp, hq2, decodeX_nat p q hq]
    split_ifs <;> omega
  · obtain ⟨p, _, hp⟩ := byte_eq_natCast (v % 4096 / 16) (by omega) (by omega)
    obtain ⟨q, _, hq2⟩ := byte_eq_natCast (v % 4096 % 16) (by omega) (by omega)
    rw [hp, hq2, decodeY_nat p q]
    split_ifs <;> omega
  · obtain ⟨m, _, rfl⟩ := byte_eq_natCast a ha.1 ha.2
    obtain ⟨m2, _, rfl⟩ := byte_eq_natCast a2 ha2.1 ha2.2
    obtain ⟨n, hn, rfl⟩ := byte_eq_natCast b hb.1 hb.2
    obtain ⟨n2, hn2, rfl⟩ := byte_eq_natCast b2 hb2.1 hb2.2
    rw [decodeX_nat m n hn, decodeX_nat m2 n2 hn2]
    split_ifs <;> intro h <;> omega

/-- Witness for C17 at the code -5 (register content `0xFFB`) and at the
bytes `0xC8`, `0x4A` against `0xC8`, `0x43`. -/
theorem decode_bijective_witness :
    ((-2048 : Int) ≤ -5 ∧ (-5 : Int) ≤ 2047) ∧
    decodeX ((-5) % 4096 / 16) (16 * ((-5) % 4096 % 16)) = -5 ∧
    decodeY ((-5) % 4096 / 16) ((-5) % 4096 % 16) = -5 ∧
    (decodeX 200 74 = decodeX 200 67 → (200 : Int) = 200 ∧ (74 : Int) / 16 = 67 / 16) :=
  ⟨by decide,
    decode_bijective (-5) 200 200 74 67 (by decide) (by decide) (by decide) (by decide)
      (by decide)⟩

/-! ## The measurement cycle: successful cycles and reachable states -/

/-- A successful `update` leaves the eight reading fields as the values
computed from the received block. -/
theorem update_true_fields (s s' : TLV493D) (rx : Fin 7 → Fin 256)
    (h : update s rx = some (true, s')) :
    s'.m_dBx = convertToMag (decodeX (rx 0).val (rx 4).val) ∧
    s'.m_dBy = convertToMag (decodeY (rx 1).val (rx 4).val) ∧
    s'.m_dBz = convertToMag (decodeZ (rx 2).val (rx 5).val) ∧
    s'.m_dTemp = convertToCelsius (decodeT (rx 3).val (rx 6).val) ∧
    atan2_remaped s'.m_dBx s'.m_dBy = some s'.m_dPhi_xy ∧
    atan2_remaped s'.m_dBy s'.m_dBz = some s'.m_dPhi_yz ∧
    atan2_remaped s'.m_dBx s'.m_dBz = some s'.m_dPhi_xz ∧
    s'.m_dMag_2 = s'.m_dBx * s'.m_dBx + s'.m_dBy * s'.m_dBy + s'.m_dBz * s'.m_dBz := by
  rcases Nat.mod_two_eq_zero_or_one (rx 3).val with h3 | h3
  · obtain ⟨pxy, pyz, pxz, hxy, hyz, hxz, hu⟩ := update_bit0_clear s rx h3
    rw [hu] at h
    have e := (congrArg Prod.snd (Option.some.inj h)).symm
    subst e
    exact ⟨rfl, rfl, rfl, rfl, hxy, hyz, hxz, rfl⟩
  · rw [update_bit0_set s rx h3] at h
    simp at h

/-- When the two low bits of a byte are clear, so is bit 0. -/
theorem bit0_clear_of_status_clear (n : Nat) (h : Int.land (n : Int) B00000011 = 0) :
    n % 2 = 0 := by
  have h1 : Int.land (n : Int) B00000011 = ((n &&& 3 : Nat) : Int) := rfl
  rw [h1] at h
  have h2 : n &&& 3 = n % 4 := Nat.and_pow_two_sub_one_eq_mod n 2
  omega

/-- One `update` call returns and keeps `ReadingInRange`. -/
theorem update_keeps_range (s : TLV493D) (rx : Fin 7 → Fin 256) (hs : ReadingInRange s) :
    ∃ r : Bool × TLV493D, update s rx = some r ∧ ReadingInRange r.2 := by
  rcases Nat.mod_two_eq_zero_or_one (rx 3).val with h3 | h3
  · obtain ⟨pxy, pyz, pxz, hxy, hyz, hxz, hu⟩ := update_bit0_clear s rx h3
    refine ⟨_, hu, ?_, ?_, ?_, ?_⟩
    · obtain ⟨θ, hθ, h0, h1⟩ := atan2_remaped_mem
        (convertToMag (decodeX (rx 0).val (rx 4).val))
        (convertToMag (decodeY (rx 1).val (rx 4).val))
      have e : pxy = θ := Option.some.inj (hxy.symm.trans hθ)
      exact e ▸ ⟨h0, h1⟩
    · obtain ⟨θ, hθ, h0, h1⟩ := atan2_remaped_mem
        (convertToMag (decodeY (rx 1).val (rx 4).val))
        (convertToMag (decodeZ (rx 2).val (rx 5).val))
      have e : pyz = θ := Option.some.inj (hyz.symm.trans hθ)
      exact e ▸ ⟨h0, h1⟩
    · obtain ⟨θ, hθ, h0, h1⟩ := atan2_remaped_mem
        (convertToMag (decodeX (rx 0).val (rx 4).val))
        (convertToMag (decodeZ (rx 2).val (rx 5).val))
      have e : pxz = θ := Option.some.inj (hxz.symm.trans hθ)
      exact e ▸ ⟨h0, h1⟩
    · exact add_nonneg (add_nonneg (mul_self_nonneg _) (mul_self_nonneg _)) (mul_self_nonneg _)
  · exact ⟨_, update_bit0_set s rx h3, hs⟩

/-- Any finite sequence of `update` calls returns and keeps
`ReadingInRange`. -/
theorem updates_keep_range (blocks : List (Fin 7 → Fin 256)) :
    ∀ s : TLV493D, ReadingInRange s → ∃ s' : TLV493D, updates s blocks = some s' ∧
      ReadingInRange s' := by
  induction blocks with
  | nil => exact fun s hs => ⟨s, rfl, hs⟩
  | cons rx rest ih =>
    intro s hs
    obtain ⟨r, hr, hr2⟩ := update_keeps_range s rx hs
    obtain ⟨s', hs', hs2⟩ := ih r.2 hr2
    refine ⟨s', ?_, hs2⟩
    show (update s rx).bind (fun r => updates r.2 rest) = some s'
    rw [hr]
    exact hs'

/-- C11: whenever `update` returns `true` on a block `r`, the eight reading
fields are the values the register table gives for `r`: the three field
components and the temperature are the conversions of the decoded codes, the
three angles are `atan2_remaped` of the new components, and the squared
magnitude is the sum of their squares. They do not depend on the state before
the call. For the all-zero block `update` returns `true` with components 0,
0, 0, temperature -352, angles 0 and squared magnitude 0. -/
theorem update_true_overwrites :
    (∀ (s s' : TLV493D) (r : Fin 7 → Fin 256), update s r = some (true, s') →
      (s'.m_dBx = convertToMag (decodeX (r 0).val (r 4).val) ∧
       s'.m_dBy = convertToMag (decodeY (r 1).val (r 4).val) ∧
       s'.m_dBz = convertToMag (decodeZ (r 2).val (r 5).val) ∧
       s'.m_dTemp = convertToCelsius (decodeT (r 3).val (r 6).val) ∧
       some s'.m_dPhi_xy = atan2_remaped s'.m_dBx s'.m_dBy ∧
       some s'.m_dPhi_yz = atan2_remaped s'.m_dBy s'.m_dBz ∧
       some s'.m_dPhi_xz = atan2_remaped s'.m_dBx s'.m_dBz ∧
       s'.m_dMag_2 = s'.m_dBx ^ 2 + s'.m_dBy ^ 2 + s'.m_dBz ^ 2) ∧
      ∀ t t' : TLV493D, update t r = some (true, t') →
        t'.m_dBx = s'.m_dBx ∧ t'.m_dBy = s'.m_dBy ∧ t'.m_dBz = s'.m_dBz ∧
        t'.m_dTemp = s'.m_dTemp ∧ t'.m_dPhi_xy = s'.m_dPhi_xy ∧
        t'.m_dPhi_yz = s'.m_dPhi_yz ∧ t'.m_dPhi_xz = s'.m_dPhi_xz ∧
        t'.m_dMag_2 = s'.m_dMag_2) ∧
    (∀ s : TLV493D, ∃ s' : TLV493D, update s blockZero = some (true, s') ∧
      s'.m_dBx = 0 ∧ s'.m_dBy = 0 ∧ s'.m_dBz = 0 ∧ s'.m_dTemp = -352 ∧
      s'.m_dPhi_xy = 0 ∧ s'.m_dPhi_yz = 0 ∧ s'.m_dPhi_xz = 0 ∧ s'.m_dMag_2 = 0) := by
  constructor
  · intro s s' r h
    obtain ⟨hx, hy, hz, ht, hxy, hyz, hxz, hm⟩ := update_true_fields s s' r h
    refine ⟨⟨hx, hy, hz, ht, hxy.symm, hyz.symm, hxz.symm, ?_⟩, ?_⟩
    · rw [hm]
      ring
    · intro t t' h2
      obtain ⟨kx, ky, kz, kt, kxy, kyz, kxz, km⟩ := update_true_fields t t' r h2
      have ex : t'.m_dBx = s'.m_dBx := kx.trans hx.symm
      have ey : t'.m_dBy = s'.m_dBy := ky.trans hy.symm
      have ez : t'.m_dBz = s'.m_dBz := kz.trans hz.symm
      refine ⟨ex, ey, ez, kt.trans ht.symm, ?_, ?_, ?_, ?_⟩
      · rw [ex, ey, hxy] at kxy
        exact (Option.some.inj kxy).symm
      · rw [ey, ez, hyz] at kyz
        exact (Option.some.inj kyz).symm
      · rw [ex, ez, hxz] at kxz
        exact (Option.some.inj kxz).symm
      · rw [km, hm, ex, ey, ez]
  · intro s
    obtain ⟨s', hu⟩ : ∃ s' : TLV493D, update s blockZero = some (true, s') := by
      obtain ⟨_, _, _, _, _, _, hu⟩ := update_bit0_clear s blockZero (by decide)
      exact ⟨_, hu⟩
    obtain ⟨hx, hy, hz, ht, hxy, hyz, hxz, hm⟩ := update_true_fields s s' blockZero hu
    have dx : decodeX ((blockZero 0).val : Int) ((blockZero 4).val : Int) = 0 := by decide
    have dy : decodeY ((blockZero 1).val : Int) ((blockZero 4).val : Int) = 0 := by decide
    have dz : decodeZ ((blockZero 2).val : Int) ((blockZero 5).val : Int) = 0 := by decide
    have dt : decodeT ((blockZero 3).val : Int) ((blockZero 6).val : Int) = 0 := by decide
    have c0 : convertToMag 0 = 0 := by
      unfold convertToMag
      norm_num
    have ct : convertToCelsius 0 = -352 := by
      unfold convertToCelsius
      norm_num
    rw [dx, c0] at hx
    rw [dy, c0] at hy
    rw [dz, c0] at hz
    rw [dt, ct] at ht
    rw [hx, hy, atan2_remaped_origin] at hxy
    rw [hy, hz, atan2_remaped_origin] at hyz
    rw [hx, hz, atan2_remaped_origin] at hxz
    refine ⟨s', hu, hx, hy, hz, ht, (Option.some.inj hxy).symm, (Option.some.inj hyz).symm,
      (Option.some.inj hxz).symm, ?_⟩
    rw [hm, hx, hy, hz]
    norm_num

/-- Witness for C11: from the state `heldReading`, `update` on `blockSample`
returns `true` and the new reading is the one decoded from `blockSample`. -/
theorem update_true_overwrites_witness :
    ∃ s' : TLV493D, update heldReading blockSample = some (true, s') ∧
      s'.m_dBx = convertToMag (decodeX (blockSample 0).val (blockSample 4).val) ∧
      s'.m_dBy = convertToMag (decodeY (blockSample 1).val (blockSample 4).val) ∧
      s'.m_dBz = convertToMag (decodeZ (blockSample 2).val (blockSample 5).val) ∧
      s'.m_dTemp = convertToCelsius (decodeT (blockSample 3).val (blockSample 6).val) ∧
      some s'.m_dPhi_xy = atan2_remaped s'.m_dBx s'.m_dBy ∧
      some s'.m_dPhi_yz = atan2_remaped s'.m_dBy s'.m_dBz ∧
      some s'.m_dPhi_xz = atan2_remaped s'.m_dBx s'.m_dBz ∧
      s'.m_dMag_2 = s'.m_dBx ^ 2 + s'.m_dBy ^ 2 + s'.m_dBz ^ 2 := by
  obtain ⟨s', hu⟩ : ∃ s' : TLV493D, update heldReading blockSample = some (true, s') := by
    obtain ⟨_, _, _, _, _, _, hu⟩ := update_bit0_clear heldReading blockSample (by decide)
    exact ⟨_, hu⟩
  exact ⟨s', hu, (update_true_overwrites.1 heldReading s' blockSample hu).1⟩

/-- C12: in every state reached from the constructor by a finite sequence of
`update` calls on arbitrary blocks, successful or not, the three angles lie
in [0, 2 * pi) and the squared magnitude is not negative; every such sequence
of calls returns. -/
theorem reachable_reading_in_range (pwrPin : Int) (blocks : List (Fin 7 → Fin 256)) :
    ∃ s : TLV493D, updates (construct pwrPin) blocks = some s ∧
      (0 ≤ s.m_dPhi_xy ∧ s.m_dPhi_xy < 2 * Real.pi) ∧
      (0 ≤ s.m_dPhi_yz ∧ s.m_dPhi_yz < 2 * Real.pi) ∧
      (0 ≤ s.m_dPhi_xz ∧ s.m_dPhi_xz < 2 * Real.pi) ∧
      0 ≤ s.m_dMag_2 := by
  have h2pi : (0 : ℝ) < 2 * Real.pi := by linarith [Real.pi_pos]
  have h0 : ReadingInRange (construct pwrPin) :=
    ⟨⟨le_refl _, h2pi⟩, ⟨le_refl _, h2pi⟩, ⟨le_refl _, h2pi⟩, le_refl _⟩
  exact updates_keep_range blocks (construct pwrPin) h0

/-- C16: for every block whose byte index 3 has both low bits zero, `update`
returns `true`, from every state; the all-zero block is one such block. -/
theorem update_true_of_status_clear (s : TLV493D) (r : Fin 7 → Fin 256)
    (h : Int.land ((r 3).val : Int) B00000011 = 0) :
    ∃ s' : TLV493D, update s r = some (true, s') := by
  obtain ⟨_, _, _, _, _, _, hu⟩ :=
    update_bit0_clear s r (bit0_clear_of_status_clear (r 3).val h)
  exact ⟨_, hu⟩

/-- Witness for C16 at the all-zero block, from the state `heldReading`. -/
theorem update_true_of_status_clear_witness :
    Int.land ((blockZero 3).val : Int) B00000011 = 0 ∧
    ∃ s' : TLV493D, update heldReading blockZero = some (true, s') :=
  ⟨by decide, update_true_of_status_clear heldReading blockZero (by decide)⟩

/-! ## Full-circle arctangent: branch structure and scaling -/

/-- When a test of the chain holds, `atan2_remaped` returns the expression of
that branch. -/
theorem atan2_remaped_of_test (x y : ℝ) (i : Fin 9) (h : atan2_test x y i) :
    atan2_remaped x y = some (atan2_value x y i) := by
  fin_cases i
  · obtain ⟨hx, hy⟩ : x = 0 ∧ y = 0 := h
    subst hx; subst hy
    exact atan2_remaped_origin
  · obtain ⟨hx, hy⟩ : x > 0 ∧ y = 0 := h
    subst hy
    exact atan2_remaped_posX hx
  · obtain ⟨hx, hy⟩ : x > 0 ∧ y > 0 := h
    exact atan2_remaped_q1 hx hy
  · obtain ⟨hx, hy⟩ : x = 0 ∧ y > 0 := h
    subst hx
    exact atan2_remaped_posY hy
  · obtain ⟨hx, hy⟩ : x < 0 ∧ y > 0 := h
    exact atan2_remaped_q2 hx hy
  · obtain ⟨hx, hy⟩ : x < 0 ∧ y = 0 := h
    subst hy
    exact atan2_remaped_negX hx
  · obtain ⟨hx, hy⟩ : x < 0 ∧ y < 0 := h
    exact atan2_remaped_q3 hx hy
  · obtain ⟨hx, hy⟩ : x = 0 ∧ y < 0 := h
    subst hx
    exact atan2_remaped_negY hy
  · obtain ⟨hx, hy⟩ : x > 0 ∧ y < 0 := h
    exact atan2_remaped_q4 hx hy

/-- At every real point some test of the chain holds. -/
theorem atan2_test_exists (x y : ℝ) : ∃ i : Fin 9, atan2_test x y i := by
  rcases lt_trichotomy x 0 with hx | hx | hx <;> rcases lt_trichotomy y 0 with hy | hy | hy
  · exact ⟨6, show x < 0 ∧ y < 0 from ⟨hx, hy⟩⟩
  · exact ⟨5, show x < 0 ∧ y = 0 from ⟨hx, hy⟩⟩
  · exact ⟨4, show x < 0 ∧ y > 0 from ⟨hx, hy⟩⟩
  · exact ⟨7, show x = 0 ∧ y < 0 from ⟨hx, hy⟩⟩
  · exact ⟨0, show x = 0 ∧ y = 0 from ⟨hx, hy⟩⟩
  · exact ⟨3, show x = 0 ∧ y > 0 from ⟨hx, hy⟩⟩
  · exact ⟨8, show x > 0 ∧ y < 0 from ⟨hx, hy⟩⟩
  · exact ⟨1, show x > 0 ∧ y = 0 from ⟨hx, hy⟩⟩
  · exact ⟨2, show x > 0 ∧ y > 0 from ⟨hx, hy⟩⟩

/-- Each test of the chain fixes the sign of `x` and the sign of `y`: the
index of a test that holds tells whether `x` is negative, zero or positive,
and the same for `y`. -/
theorem atan2_test_signs (x y : ℝ) (i : Fin 9) (h : atan2_test x y i) :
    ((x < 0 ↔ i = 4 ∨ i = 5 ∨ i = 6) ∧ (x = 0 ↔ i = 0 ∨ i = 3 ∨ i = 7)) ∧
    ((y < 0 ↔ i = 6 ∨ i = 7 ∨ i = 8) ∧ (y = 0 ↔ i = 0 ∨ i = 1 ∨ i = 5)) := by
  fin_cases i
  · obtain ⟨hx, hy⟩ : x = 0 ∧ y = 0 := h
    simp [hx, hy]
  · obtain ⟨hx, hy⟩ : x > 0 ∧ y = 0 := h
    simp [hx.le, hx.ne', hy]
  · obtain ⟨hx, hy⟩ : x > 0 ∧ y > 0 := h
    simp [hx.le, hx.ne', hy.le, hy.ne']
  · obtain ⟨hx, hy⟩ : x = 0 ∧ y > 0 := h
    simp [hx, hy.le, hy.ne']
  · obtain ⟨hx, hy⟩ : x < 0 ∧ y > 0 := h
    simp [hx, hx.ne, hy.le, hy.ne']
  · obtain ⟨hx, hy⟩ : x < 0 ∧ y = 0 := h
    simp [hx, hx.ne, hy]
  · obtain ⟨hx, hy⟩ : x < 0 ∧ y < 0 := h
    simp [hx, hx.ne, hy, hy.ne]
  · obtain ⟨hx, hy⟩ : x = 0 ∧ y < 0 := h
    simp [hx, hy, hy.ne]
  · obtain ⟨hx, hy⟩ : x > 0 ∧ y < 0 := h
    simp [hx.le, hx.ne', hy, hy.ne]

/-- Two branch indices with the same sign pattern are the same branch. -/
theorem atan2_index_of_signs :
    ∀ i j : Fin 9,
      ((i = 4 ∨ i = 5 ∨ i = 6) ↔ (j = 4 ∨ j = 5 ∨ j = 6)) →
      ((i = 0 ∨ i = 3 ∨ i = 7) ↔ (j = 0 ∨ j = 3 ∨ j = 7)) →
      ((i = 6 ∨ i = 7 ∨ i = 8) ↔ (j = 6 ∨ j = 7 ∨ j = 8)) →
      ((i = 0 ∨ i = 1 ∨ i = 5) ↔ (j = 0 ∨ j = 1 ∨ j = 5)) → i = j := by
  intro i j
  fin_cases i <;> fin_cases j <;> simp

/-- C18: the nine-branch chain of `atan2_remaped` is exhaustive and mutually
exclusive over the reals: at every point exactly one test holds, the function
returns the expression of that branch and never falls through, and a branch
that divides by `x` is taken only where `x` is nonzero. -/
theorem atan2_branches_exhaustive_exclusive (x y : ℝ) :
    (∃! i : Fin 9, atan2_test x y i) ∧
    (∀ i : Fin 9, atan2_test x y i → atan2_remaped x y = some (atan2_value x y i)) ∧
    atan2_remaped x y ≠ none ∧
    (∀ i : Fin 9, atan2_divides i = true → atan2_test x y i → x ≠ 0) := by
  obtain ⟨i, hi⟩ := atan2_test_exists x y
  refine ⟨⟨i, hi, fun j hj => ?_⟩, fun j hj => atan2_remaped_of_test x y j hj, ?_, ?_⟩
  · obtain ⟨⟨a1, a2⟩, a3, a4⟩ := atan2_test_signs x y i hi
    obtain ⟨⟨b1, b2⟩, b3, b4⟩ := atan2_test_signs x y j hj
    exact atan2_index_of_signs j i (b1.symm.trans a1) (b2.symm.trans a2) (b3.symm.trans a3)
      (b4.symm.trans a4)
  · rw [atan2_remaped_of_test x y i hi]
    exact Option.some_ne_none _
  · intro j hd hj hx
    have hc := (atan2_test_signs x y j hj).1.2.mp hx
    revert hd
    rcases hc with rfl | rfl | rfl <;> decide

/-- Witness for C18 at the second-quadrant point `(-1, 1)`: the fifth test
holds, its branch is the one returned, and the divisor is nonzero. -/
theorem atan2_branches_exhaustive_exclusive_witness :
    atan2_test (-1) 1 4 ∧
    atan2_remaped (-1) 1 = some (atan2_value (-1) 1 4) ∧
    (-1 : ℝ) ≠ 0 :=
  have ht : atan2_test (-1) 1 4 := show (-1 : ℝ) < 0 ∧ (1 : ℝ) > 0 by norm_num
  ⟨ht, (atan2_branches_exhaustive_exclusive (-1) 1).2.1 4 ht,
    (atan2_branches_exhaustive_exclusive (-1) 1).2.2.2 4 (by decide) ht⟩

/-- In exact real arithmetic `atan2_remaped` is invariant under scaling both
arguments by the same positive factor, and the angles stored by a successful
`update` are then the angles of the raw integer codes. -/
theorem atan2_remaped_scale_exact :
    (∀ x y k : ℝ, 0 < k → atan2_remaped (k * x) (k * y) = atan2_remaped x y) ∧
    (∀ (s s' : TLV493D) (r : Fin 7 → Fin 256), update s r = some (true, s') →
      some s'.m_dPhi_xy
        = atan2_remaped ((decodeX (r 0).val (r 4).val : Int) : ℝ)
            ((decodeY (r 1).val (r 4).val : Int) : ℝ) ∧
      some s'.m_dPhi_yz
        = atan2_remaped ((decodeY (r 1).val (r 4).val : Int) : ℝ)
            ((decodeZ (r 2).val (r 5).val : Int) : ℝ) ∧
      some s'.m_dPhi_xz
        = atan2_remaped ((decodeX (r 0).val (r 4).val : Int) : ℝ)
            ((decodeZ (r 2).val (r 5).val : Int) : ℝ)) := by
  have scale : ∀ x y k : ℝ, 0 < k → atan2_remaped (k * x) (k * y) = atan2_remaped x y := by
    intro x y k hk
    have q : k * y / (k * x) = y / x := mul_div_mul_left y x hk.ne'
    rcases lt_trichotomy x 0 with hx | hx | hx <;> rcases lt_trichotomy y 0 with hy | hy | hy
    · rw [atan2_remaped_q3 hx hy,
        atan2_remaped_q3 (mul_neg_of_pos_of_neg hk hx) (mul_neg_of_pos_of_neg hk hy), q]
    · subst hy
      rw [mul_zero, atan2_remaped_negX hx, atan2_remaped_negX (mul_neg_of_pos_of_neg hk hx)]
    · rw [atan2_remaped_q2 hx hy,
        atan2_remaped_q2 (mul_neg_of_pos_of_neg hk hx) (mul_pos hk hy), q]
    · subst hx
      rw [mul_zero, atan2_remaped_negY hy, atan2_remaped_negY (mul_neg_of_pos_of_neg hk hy)]
    · subst hx; subst hy
      rw [mul_zero]
    · subst hx
      rw [mul_zero, atan2_remaped_posY hy, atan2_remaped_posY (mul_pos hk hy)]
    · rw [atan2_remaped_q4 hx hy,
        atan2_remaped_q4 (mul_pos hk hx) (mul_neg_of_pos_of_neg hk hy), q]
    · subst hy
      rw [mul_zero, atan2_remaped_posX hx, atan2_remaped_posX (mul_pos hk hx)]
    · rw [atan2_remaped_q1 hx hy, atan2_remaped_q1 (mul_pos hk hx) (mul_pos hk hy), q]
  refine ⟨scale, fun s s' r h => ?_⟩
  have hk : (0 : ℝ) < 0.098 := by norm_num
  have mag : ∀ c : Int, convertToMag c = 0.098 * (c : ℝ) := fun c => mul_comm _ _
  obtain ⟨hx, hy, hz, _, hxy, hyz, hxz, _⟩ := update_true_fields s s' r h
  rw [hx, hy, mag, mag, scale _ _ _ hk] at hxy
  rw [hy, hz, mag, mag, scale _ _ _ hk] at hyz
  rw [hx, hz, mag, mag, scale _ _ _ hk] at hxz
  exact ⟨hxy.symm, hyz.symm, hxz.symm⟩

/-! ## Evaluation with a 16-bit `int` -/

/-- Bounds of the intermediates of `decodeX` on bytes. -/
theorem decodeX_steps (m n : Nat) (hm : m < 256) (hn : n < 256) :
    (0 ≤ (m : Int) <<< (4 : Int) ∧ (m : Int) <<< (4 : Int) ≤ 4080) ∧
    (0 ≤ Int.land (n : Int) B11110000 ∧ Int.land (n : Int) B11110000 ≤ 240) ∧
    (0 ≤ (Int.land (n : Int) B11110000) >>> (4 : Int) ∧
      (Int.land (n : Int) B11110000) >>> (4 : Int) ≤ 15) ∧
    (0 ≤ Int.land ((Int.land (n : Int) B11110000) >>> (4 : Int)) B00001111 ∧
      Int.land ((Int.land (n : Int) B11110000) >>> (4 : Int)) B00001111 ≤ 15) ∧
    (0 ≤ Int.lor ((m : Int) <<< (4 : Int))
        (Int.land ((Int.land (n : Int) B11110000) >>> (4 : Int)) B00001111) ∧
      Int.lor ((m : Int) <<< (4 : Int))
        (Int.land ((Int.land (n : Int) B11110000) >>> (4 : Int)) B00001111) ≤ 4095) := by
  have h1 : ((m : Int) <<< (4 : Int)) = ((m <<< 4 : Nat) : Int) := Int.shiftLeft_coe_nat m 4
  have h1n : m <<< 4 = m * 16 := Nat.shiftLeft_eq m 4
  have h2 : Int.land (n : Int) B11110000 = ((n &&& 240 : Nat) : Int) := rfl
  have h2n : n &&& 240 ≤ 240 := Nat.and_le_right
  have h3 : (((n &&& 240 : Nat) : Int) >>> (4 : Int)) = (((n &&& 240) >>> 4 : Nat) : Int) :=
    Int.shiftRight_coe_nat _ 4
  have h3n : (n &&& 240) >>> 4 = (n &&& 240) / 2 ^ 4 := Nat.shiftRight_eq_div_pow _ 4
  have h4 : Int.land ((((n &&& 240) >>> 4 : Nat) : Int)) B00001111
      = ((((n &&& 240) >>> 4) &&& 15 : Nat) : Int) := rfl
  have h4n := nat_upperNibble n hn
  have h5 := compositeX m n hn
  rw [h1, h2, h3, h4] at h5
  rw [h1, h2, h3, h4, h5, h4n, h1n, h3n]
  refine ⟨?_, ?_, ?_, ?_, ?_⟩ <;> omega

/-- Bounds of the intermediates of `decodeY` and `decodeZ` on bytes. -/
theorem decodeYZ_steps (m n : Nat) (hm : m < 256) :
    (0 ≤ (m : Int) <<< (4 : Int) ∧ (m : Int) <<< (4 : Int) ≤ 4080) ∧
    (0 ≤ Int.land (n : Int) B00001111 ∧ Int.land (n : Int) B00001111 ≤ 15) ∧
    (0 ≤ Int.lor ((m : Int) <<< (4 : Int)) (Int.land (n : Int) B00001111) ∧
      Int.lor ((m : Int) <<< (4 : Int)) (Int.land (n : Int) B00001111) ≤ 4095) := by
  have h1 : ((m : Int) <<< (4 : Int)) = ((m <<< 4 : Nat) : Int) := Int.shiftLeft_coe_nat m 4
  have h1n : m <<< 4 = m * 16 := Nat.shiftLeft_eq m 4
  have h2 : Int.land (n : Int) B00001111 = ((n &&& 15 : Nat) : Int) := rfl
  have h2n := nat_lowerNibble n
  have h5 := compositeYZ m n
  rw [h1, h2] at h5
  rw [h1, h2, h5, h2n, h1n]
  refine ⟨?_, ?_, ?_⟩ <;> omega

/-- Bounds of the intermediates of `decodeT` on bytes. -/
theorem decodeT_steps (m n : Nat) (hm : m < 256) (hn : n < 256) :
    (0 ≤ Int.land (m : Int) B11110000 ∧ Int.land (m : Int) B11110000 ≤ 240) ∧
    (0 ≤ (Int.land (m : Int) B11110000) <<< (4 : Int) ∧
      (Int.land (m : Int) B11110000) <<< (4 : Int) ≤ 3840) ∧
    (0 ≤ Int.lor ((Int.land (m : Int) B11110000) <<< (4 : Int)) (n : Int) ∧
      Int.lor ((Int.land (m : Int) B11110000) <<< (4 : Int)) (n : Int) ≤ 4095) := by
  have h1 : Int.land (m : Int) B11110000 = ((m &&& 240 : Nat) : Int) := rfl
  have h1n : m &&& 240 ≤ 240 := Nat.and_le_right
  have h2 : (((m &&& 240 : Nat) : Int) <<< (4 : Int)) = (((m &&& 240) <<< 4 : Nat) : Int) :=
    Int.shiftLeft_coe_nat _ 4
  have h2n : (m &&& 240) <<< 4 = (m &&& 240) * 16 := Nat.shiftLeft_eq _ 4
  have h5 := compositeT m n hm hn
  rw [h1, h2] at h5
  rw [h1, h2, h5, h2n]
  refine ⟨?_, ?_, ?_⟩ <;> omega

/-- On bytes every intermediate of `decodeX` fits a 16-bit `int`, and the
16-bit evaluation agrees with `decodeX`. -/
theorem decodeX16_agrees (m n : Nat) (hm : m < 256) (hn : n < 256) :
    (∀ v ∈ decodeX_intermediates (m : Int) (n : Int), -32768 ≤ v ∧ v ≤ 32767) ∧
    decodeX16 (m : Int) (n : Int) = decodeX (m : Int) (n : Int) := by
  obtain ⟨h1, h2, h3, h4, h5⟩ := decodeX_steps m n hm hn
  constructor
  · intro v hv
    simp only [decodeX_intermediates, List.mem_append, List.mem_cons, List.mem_singleton,
      List.not_mem_nil, or_false] at hv
    rcases hv with (rfl | rfl | rfl | rfl | rfl) | hv
    · omega
    · omega
    · omega
    · omega
    · omega
    · split_ifs at hv
      · rw [List.mem_singleton] at hv
        omega
      · exact absurd hv (List.not_mem_nil v)
  · have w1 := wrap16_id ((m : Int) <<< (4 : Int)) ⟨by omega, by omega⟩
    have w2 := wrap16_id (Int.land (n : Int) B11110000) ⟨by omega, by omega⟩
    have w3 := wrap16_id ((Int.land (n : Int) B11110000) >>> (4 : Int)) ⟨by omega, by omega⟩
    have w4 := wrap16_id (Int.land ((Int.land (n : Int) B11110000) >>> (4 : Int)) B00001111)
      ⟨by omega, by omega⟩
    have w5 := wrap16_id (Int.lor ((m : Int) <<< (4 : Int))
      (Int.land ((Int.land (n : Int) B11110000) >>> (4 : Int)) B00001111)) ⟨by omega, by omega⟩
    have w6 := wrap16_id (Int.lor ((m : Int) <<< (4 : Int))
      (Int.land ((Int.land (n : Int) B11110000) >>> (4 : Int)) B00001111) - 4096)
      ⟨by omega, by omega⟩
    simp only [decodeX16, decodeX, w1, w2, w3, w4, w5, w6]

/-- On bytes every intermediate of `decodeY` fits a 16-bit `int`, and the
16-bit evaluation agrees with `decodeY`. -/
theorem decodeY16_agrees (m n : Nat) (hm : m < 256) :
    (∀ v ∈ decodeY_intermediates (m : Int) (n : Int), -32768 ≤ v ∧ v ≤ 32767) ∧
    decodeY16 (m : Int) (n : Int) = decodeY (m : Int) (n : Int) := by
  obtain ⟨h1, h2, h5⟩ := decodeYZ_steps m n hm
  constructor
  · intro v hv
    simp only [decodeY_intermediates, List.mem_append, List.mem_cons, List.mem_singleton,
      List.not_mem_nil, or_false] at hv
    rcases hv with (rfl | rfl | rfl) | hv
    · omega
    · omega
    · omega
    · split_ifs at hv
      · rw [List.mem_singleton] at hv
        omega
      · exact absurd hv (List.not_mem_nil v)
  · have w1 := wrap16_id ((m : Int) <<< (4 : Int)) ⟨by omega, by omega⟩
    have w2 := wrap16_id (Int.land (n : Int) B00001111) ⟨by omega, by omega⟩
    have w5 := wrap16_id (Int.lor ((m : Int) <<< (4 : Int)) (Int.land (n : Int) B00001111))
      ⟨by omega, by omega⟩
    have w6 := wrap16_id
      (Int.lor ((m : Int) <<< (4 : Int)) (Int.land (n : Int) B00001111) - 4096)
      ⟨by omega, by omega⟩
    simp only [decodeY16, decodeY, w1, w2, w5, w6]

/-- On bytes every intermediate of `decodeZ` fits a 16-bit `int`, and the
16-bit evaluation agrees with `decodeZ`. -/
theorem decodeZ16_agrees (m n : Nat) (hm : m < 256) :
    (∀ v ∈ decodeZ_intermediates (m : Int) (n : Int), -32768 ≤ v ∧ v ≤ 32767) ∧
    decodeZ16 (m : Int) (n : Int) = decodeZ (m : Int) (n : Int) := by
  obtain ⟨h1, h2, h5⟩ := decodeYZ_steps m n hm
  constructor
  · intro v hv
    simp only [decodeZ_intermediates, List.mem_append, List.mem_cons, List.mem_singleton,
      List.not_mem_nil, or_false] at hv
    rcases hv with (rfl | rfl | rfl) | hv
    · omega
    · omega
    · omega
    · split_ifs at hv
      · rw [List.mem_singleton] at hv
        omega
      · exact absurd hv (List.not_mem_nil v)
  · have w1 := wrap16_id ((m : Int) <<< (4 : Int)) ⟨by omega, by omega⟩
    have w2 := wrap16_id (Int.land (n : Int) B00001111) ⟨by omega, by omega⟩
    have w5 := wrap16_id (Int.lor ((m : Int) <<< (4 : Int)) (Int.land (n : Int) B00001111))
      ⟨by omega, by omega⟩
    have w6 := wrap16_id
      (Int.lor ((m : Int) <<< (4 : Int)) (Int.land (n : Int) B00001111) - 4096)
      ⟨by omega, by omega⟩
    simp only [decodeZ16, decodeZ, w1, w2, w5, w6]

/-- On bytes every intermediate of `decodeT` fits a 16-bit `int`, and the
16-bit evaluation agrees with `decodeT`. -/
theorem decodeT16_agrees (m n : Nat) (hm : m < 256) (hn : n < 256) :
    (∀ v ∈ decodeT_intermediates (m : Int) (n : Int), -32768 ≤ v ∧ v ≤ 32767) ∧
    decodeT16 (m : Int) (n : Int) = decodeT (m : Int) (n : Int) := by
  obtain ⟨h1, h2, h5⟩ := decodeT_steps m n hm hn
  constructor
  · intro v hv
    simp only [decodeT_intermediates, List.mem_append, List.mem_cons, List.mem_singleton,
      List.not_mem_nil, or_false] at hv
    rcases hv with (rfl | rfl | rfl) | hv
    · omega
    · omega
    · omega
    · split_ifs at hv
      · rw [List.mem_singleton] at hv
        omega
      · exact absurd hv (List.not_mem_nil v)
  · have w1 := wrap16_id (Int.land (m : Int) B11110000) ⟨by omega, by omega⟩
    have w2 := wrap16_id ((Int.land (m : Int) B11110000) <<< (4 : Int)) ⟨by omega, by omega⟩
    have w5 := wrap16_id (Int.lor ((Int.land (m : Int) B11110000) <<< (4 : Int)) (n : Int))
      ⟨by omega, by omega⟩
    have w6 := wrap16_id
      (Int.lor ((Int.land (m : Int) B11110000) <<< (4 : Int)) (n : Int) - 4096)
      ⟨by omega, by omega⟩
    simp only [decodeT16, decodeT, w1, w2, w5, w6]

/-- C20: with a 16-bit `int`, for bytes `a`, `b` in [0, 255] every integer
intermediate of `decodeX`, `decodeY`, `decodeZ` and `decodeT` lies in
[-32768, 32767], and for a code in [-2048, 2047] so does `code - 320` in
`convertToCelsius`; evaluating with arithmetic modulo 2^16 gives the results
of the unbounded evaluation. -/
theorem int16_no_overflow (a b code : Int) (ha : 0 ≤ a ∧ a ≤ 255) (hb : 0 ≤ b ∧ b ≤ 255)
    (hc : -2048 ≤ code ∧ code ≤ 2047) :
    ((∀ v ∈ decodeX_intermediates a b, -32768 ≤ v ∧ v ≤ 32767) ∧
      decodeX16 a b = decodeX a b) ∧
    ((∀ v ∈ decodeY_intermediates a b, -32768 ≤ v ∧ v ≤ 32767) ∧
      decodeY16 a b = decodeY a b) ∧
    ((∀ v ∈ decodeZ_intermediates a b, -32768 ≤ v ∧ v ≤ 32767) ∧
      decodeZ16 a b = decodeZ a b) ∧
    ((∀ v ∈ decodeT_intermediates a b, -32768 ≤ v ∧ v ≤ 32767) ∧
      decodeT16 a b = decodeT a b) ∧
    ((-32768 ≤ code - 320 ∧ code - 320 ≤ 32767) ∧
      convertToCelsius16 code = convertToCelsius code) := by
  obtain ⟨m, hm, rfl⟩ := byte_eq_natCast a ha.1 ha.2
  obtain ⟨n, hn, rfl⟩ := byte_eq_natCast b hb.1 hb.2
  refine ⟨decodeX16_agrees m n hm hn, decodeY16_agrees m n hm, decodeZ16_agrees m n hm,
    decodeT16_agrees m n hm hn, ⟨by omega, by omega⟩, ?_⟩
  unfold convertToCelsius16 convertToCelsius
  rw [wrap16_id (code - 320) ⟨by omega, by omega⟩]

/-- Witness for C20 at the bytes `0xFF`, `0xFF` and the code -2048: the
largest shift result 4080, the composite 4095 and the difference -2368 all
fit 16 bits. -/
theorem int16_no_overflow_witness :
    ((0 : Int) ≤ 255 ∧ (255 : Int) ≤ 255 ∧ (-2048 : Int) ≤ -2048 ∧ (-2048 : Int) ≤ 2047) ∧
    (((∀ v ∈ decodeX_intermediates 255 255, -32768 ≤ v ∧ v ≤ 32767) ∧
      decodeX16 255 255 = decodeX 255 255) ∧
    ((∀ v ∈ decodeY_intermediates 255 255, -32768 ≤ v ∧ v ≤ 32767) ∧
      decodeY16 255 255 = decodeY 255 255) ∧
    ((∀ v ∈ decodeZ_intermediates 255 255, -32768 ≤ v ∧ v ≤ 32767) ∧
      decodeZ16 255 255 = decodeZ 255 255) ∧
    ((∀ v ∈ decodeT_intermediates 255 255, -32768 ≤ v ∧ v ≤ 32767) ∧
      decodeT16 255 255 = decodeT 255 255) ∧
    (((-32768 : Int) ≤ -2048 - 320 ∧ (-2048 : Int) - 320 ≤ 32767) ∧
      convertToCelsius16 (-2048) = convertToCelsius (-2048))) ∧
    decodeX_intermediates 255 255 = [4080, 240, 15, 15, 4095, -1] :=
  ⟨by decide, int16_no_overflow 255 255 (-2048) (by decide) (by decide) (by decide),
    by decide⟩

/-! ## Rounding to a binary floating-point format -/

theorem roundEven_floor_le (r : ℝ) : ⌊r⌋ ≤ roundEven r := by
  unfold roundEven
  split_ifs <;> omega

theorem roundEven_le_floor_succ (r : ℝ) : roundEven r ≤ ⌊r⌋ + 1 := by
  unfold roundEven
  split_ifs <;> omega

theorem roundEven_mono {r s : ℝ} (h : r ≤ s) : roundEven r ≤ roundEven s := by
  have hf : ⌊r⌋ ≤ ⌊s⌋ := Int.floor_mono h
  rcases hf.lt_or_eq with hlt | heq
  · calc roundEven r ≤ ⌊r⌋ + 1 := roundEven_le_floor_succ r
      _ ≤ ⌊s⌋ := hlt
      _ ≤ roundEven s := roundEven_floor_le s
  · unfold roundEven
    rw [heq]
    have hrs : r - (⌊s⌋ : ℝ) ≤ s - (⌊s⌋ : ℝ) := by linarith
    split_ifs <;> first | omega | (exfalso; linarith)

theorem roundEven_intCast_add (n : ℤ) (δ : ℝ) (h : |δ| < 1 / 2) :
    roundEven ((n : ℝ) + δ) = n := by
  obtain ⟨h1, h2⟩ := abs_lt.mp h
  rcases le_or_lt 0 δ with h0 | h0
  · have hf : ⌊(n : ℝ) + δ⌋ = n := by
      rw [Int.floor_eq_iff]
      constructor <;> linarith
    unfold roundEven
    rw [hf, if_pos (by linarith)]
  · have hf : ⌊(n : ℝ) + δ⌋ = n - 1 := by
      rw [Int.floor_eq_iff]
      push_cast
      constructor <;> linarith
    unfold roundEven
    rw [hf]
    push_cast
    rw [if_neg (by linarith), if_pos (by linarith)]
    ring

theorem roundEven_intCast (n : ℤ) : roundEven (n : ℝ) = n := by
  have := roundEven_intCast_add n 0 (by norm_num)
  rwa [add_zero] at this

theorem log2_spec {v : ℝ} (hv : 0 < v) :
    (2 : ℝ) ^ (Int.log 2 v) ≤ v ∧ v < (2 : ℝ) ^ (Int.log 2 v + 1) := by
  have h1 := Int.zpow_log_le_self (b := 2) (by norm_num) hv
  have h2 := Int.lt_zpow_succ_log_self (b := 2) (by norm_num) v
  exact ⟨by exact_mod_cast h1, by exact_mod_cast h2⟩

theorem log2_eq {v : ℝ} {e : ℤ} (h1 : (2 : ℝ) ^ e ≤ v) (h2 : v < (2 : ℝ) ^ (e + 1)) :
    Int.log 2 v = e := by
  have hv : 0 < v := lt_of_lt_of_le (zpow_pos (by norm_num) e) h1
  have a : e ≤ Int.log 2 v :=
    (Int.zpow_le_iff_le_log (b := 2) (by norm_num) hv).mp (by exact_mod_cast h1)
  have b : Int.log 2 v < e + 1 :=
    (Int.lt_zpow_iff_log_lt (b := 2) (by norm_num) hv).mp (by exact_mod_cast h2)
  omega

theorem ulp_pos (p : ℕ) (v : ℝ) : 0 < ulp p v := zpow_pos (by norm_num) _

theorem ulp_eq {p : ℕ} {v : ℝ} {e : ℤ} (h1 : (2 : ℝ) ^ e ≤ v) (h2 : v < (2 : ℝ) ^ (e + 1)) :
    ulp p v = (2 : ℝ) ^ (e + 1 - (p : ℤ)) := by
  unfold ulp
  rw [log2_eq h1 h2]

/-- The scaled magnitude `v / ulp p v` lies in `[2 ^ (p - 1), 2 ^ p)`. -/
theorem div_ulp_mem (p : ℕ) {v : ℝ} (hv : 0 < v) :
    (2 : ℝ) ^ ((p : ℤ) - 1) ≤ v / ulp p v ∧ v / ulp p v < (2 : ℝ) ^ (p : ℤ) := by
  obtain ⟨h1, h2⟩ := log2_spec hv
  have hu := ulp_pos p v
  have e1 : (2 : ℝ) ^ ((p : ℤ) - 1) * ulp p v = (2 : ℝ) ^ (Int.log 2 v) := by
    unfold ulp
    rw [← zpow_add₀ (by norm_num : (2 : ℝ) ≠ 0)]
    congr 1
    ring
  have e2 : (2 : ℝ) ^ (p : ℤ) * ulp p v = (2 : ℝ) ^ (Int.log 2 v + 1) := by
    unfold ulp
    rw [← zpow_add₀ (by norm_num : (2 : ℝ) ≠ 0)]
    congr 1
    ring
  constructor
  · rw [le_div_iff₀ hu, e1]
    exact h1
  · rw [div_lt_iff₀ hu, e2]
    exact h2

theorem two_zpow_pred_eq_intCast {p : ℕ} (hp : 1 ≤ p) :
    (2 : ℝ) ^ ((p : ℤ) - 1) = (((2 : ℤ) ^ (p - 1) : ℤ) : ℝ) := by
  have : ((p : ℤ) - 1) = ((p - 1 : ℕ) : ℤ) := by omega
  rw [this, zpow_natCast]
  push_cast
  rfl

theorem two_zpow_eq_intCast (p : ℕ) : (2 : ℝ) ^ (p : ℤ) = (((2 : ℤ) ^ p : ℤ) : ℝ) := by
  rw [zpow_natCast]
  push_cast
  rfl

/-- The rounded scaled magnitude lies in `[2 ^ (p - 1), 2 ^ p]`. -/
theorem roundEven_div_ulp_mem {p : ℕ} (hp : 1 ≤ p) {v : ℝ} (hv : 0 < v) :
    (2 : ℤ) ^ (p - 1) ≤ roundEven (v / ulp p v) ∧ roundEven (v / ulp p v) ≤ (2 : ℤ) ^ p := by
  obtain ⟨h1, h2⟩ := div_ulp_mem p hv
  constructor
  · have := roundEven_mono h1
    rwa [two_zpow_pred_eq_intCast hp, roundEven_intCast] at this
  · have := roundEven_mono h2.le
    rwa [two_zpow_eq_intCast, roundEven_intCast] at this

theorem roundMag_zero (p : ℕ) : roundMag p 0 = 0 := by
  unfold roundMag
  rw [zero_div]
  have : roundEven (0 : ℝ) = 0 := by
    have := roundEven_intCast 0
    simpa using this
  rw [this]
  simp

theorem roundMag_nonneg (p : ℕ) {v : ℝ} (hv : 0 ≤ v) : 0 ≤ roundMag p v := by
  unfold roundMag
  have hu := ulp_pos p v
  have h0 : (0 : ℤ) ≤ roundEven (v / ulp p v) := by
    have h1 : (0 : ℤ) ≤ ⌊v / ulp p v⌋ := Int.floor_nonneg.mpr (div_nonneg hv hu.le)
    exact h1.trans (roundEven_floor_le _)
  exact mul_nonneg (by exact_mod_cast h0) hu.le

/-- A rounded positive magnitude stays in the closed binade of the
magnitude. -/
theorem roundMag_mem_binade {p : ℕ} (hp : 1 ≤ p) {v : ℝ} (hv : 0 < v) :
    (2 : ℝ) ^ (Int.log 2 v) ≤ roundMag p v ∧ roundMag p v ≤ (2 : ℝ) ^ (Int.log 2 v + 1) := by
  obtain ⟨h1, h2⟩ := roundEven_div_ulp_mem hp hv
  have hu := ulp_pos p v
  have e1 : (2 : ℝ) ^ ((p : ℤ) - 1) * ulp p v = (2 : ℝ) ^ (Int.log 2 v) := by
    unfold ulp
    rw [← zpow_add₀ (by norm_num : (2 : ℝ) ≠ 0)]
    congr 1
    ring
  have e2 : (2 : ℝ) ^ (p : ℤ) * ulp p v = (2 : ℝ) ^ (Int.log 2 v + 1) := by
    unfold ulp
    rw [← zpow_add₀ (by norm_num : (2 : ℝ) ≠ 0)]
    congr 1
    ring
  unfold roundMag
  constructor
  · rw [← e1, two_zpow_pred_eq_intCast hp]
    exact mul_le_mul_of_nonneg_right (by exact_mod_cast h1) hu.le
  · rw [← e2, two_zpow_eq_intCast]
    exact mul_le_mul_of_nonneg_right (by exact_mod_cast h2) hu.le

theorem roundMag_mono {p : ℕ} (hp : 1 ≤ p) {v w : ℝ} (hv : 0 ≤ v) (h : v ≤ w) :
    roundMag p v ≤ roundMag p w := by
  rcases hv.eq_or_lt with h0 | h0
  · rw [← h0, roundMag_zero]
    exact roundMag_nonneg p (hv.trans h)
  · have hw : 0 < w := lt_of_lt_of_le h0 h
    have hl : Int.log 2 v ≤ Int.log 2 w := Int.log_mono_right h0 h
    rcases hl.lt_or_eq with hlt | heq
    · calc roundMag p v ≤ (2 : ℝ) ^ (Int.log 2 v + 1) := (roundMag_mem_binade hp h0).2
        _ ≤ (2 : ℝ) ^ (Int.log 2 w) := zpow_le_zpow_right₀ (by norm_num) (by omega)
        _ ≤ roundMag p w := (roundMag_mem_binade hp hw).1
    · have hu : ulp p v = ulp p w := by
        unfold ulp
        rw [heq]
      unfold roundMag
      rw [hu]
      have hu0 := ulp_pos p w
      have := roundEven_mono (div_le_div_of_nonneg_right h hu0.le)
      exact mul_le_mul_of_nonneg_right (by exact_mod_cast this) hu0.le

/-- Evaluation of `roundMag` at a magnitude whose binade and nearest integer
multiple of the unit are known. -/
theorem roundMag_eval {p : ℕ} {v : ℝ} (e n : ℤ)
    (h1 : (2 : ℝ) ^ e ≤ v) (h2 : v < (2 : ℝ) ^ (e + 1))
    (hn : |v / (2 : ℝ) ^ (e + 1 - (p : ℤ)) - n| < 1 / 2) :
    roundMag p v = (n : ℝ) * (2 : ℝ) ^ (e + 1 - (p : ℤ)) := by
  unfold roundMag
  rw [ulp_eq h1 h2]
  have : v / (2 : ℝ) ^ (e + 1 - (p : ℤ)) = (n : ℝ) + (v / (2 : ℝ) ^ (e + 1 - (p : ℤ)) - n) := by
    ring
  rw [this, roundEven_intCast_add n _ hn]

/-- A positive integer below `2 ^ p` times a power of two is a value of the
format: rounding leaves it unchanged. -/
theorem roundMag_fix {p : ℕ} (n k : ℤ) (hn0 : 0 < n) (hn : n < (2 : ℤ) ^ p) :
    roundMag p ((n : ℝ) * (2 : ℝ) ^ k) = (n : ℝ) * (2 : ℝ) ^ k := by
  have h2 : (2 : ℝ) ≠ 0 := by norm_num
  have hk : (0 : ℝ) < (2 : ℝ) ^ k := zpow_pos (by norm_num) k
  have hnR : (0 : ℝ) < (n : ℝ) := by exact_mod_cast hn0
  have hv : 0 < (n : ℝ) * (2 : ℝ) ^ k := mul_pos hnR hk
  obtain ⟨l1, l2⟩ := log2_spec hv
  set e := Int.log 2 ((n : ℝ) * (2 : ℝ) ^ k) with he
  have hke : e + 1 - (p : ℤ) ≤ k := by
    by_contra hc
    push_neg at hc
    have hlt : (n : ℝ) * (2 : ℝ) ^ k < (2 : ℝ) ^ e := by
      calc (n : ℝ) * (2 : ℝ) ^ k < (2 : ℝ) ^ (p : ℤ) * (2 : ℝ) ^ k := by
            apply mul_lt_mul_of_pos_right _ hk
            rw [two_zpow_eq_intCast]
            exact_mod_cast hn
        _ = (2 : ℝ) ^ ((p : ℤ) + k) := (zpow_add₀ h2 _ _).symm
        _ ≤ (2 : ℝ) ^ e := zpow_le_zpow_right₀ (by norm_num) (by omega)
    exact absurd l1 (not_le.mpr hlt)
  obtain ⟨d, hd⟩ : ∃ d : ℕ, k = (e + 1 - (p : ℤ)) + (d : ℤ) :=
    ⟨(k - (e + 1 - (p : ℤ))).toNat, by omega⟩
  have hq : (n : ℝ) * (2 : ℝ) ^ k / (2 : ℝ) ^ (e + 1 - (p : ℤ)) = ((n * 2 ^ d : ℤ) : ℝ) := by
    rw [hd, zpow_add₀ h2, zpow_natCast]
    have hu : (2 : ℝ) ^ (e + 1 - (p : ℤ)) ≠ 0 := (zpow_pos (by norm_num) _).ne'
    field_simp
    ring
  unfold roundMag ulp
  rw [← he, hq, roundEven_intCast]
  rw [← hq]
  have hu : (2 : ℝ) ^ (e + 1 - (p : ℤ)) ≠ 0 := (zpow_pos (by norm_num) _).ne'
  field_simp

theorem roundMag_idem {p : ℕ} (hp : 1 ≤ p) {v : ℝ} (hv : 0 ≤ v) :
    roundMag p (roundMag p v) = roundMag p v := by
  rcases hv.eq_or_lt with h0 | h0
  · rw [← h0, roundMag_zero, roundMag_zero]
  · obtain ⟨m1, m2⟩ := roundEven_div_ulp_mem hp h0
    have hpos : (0 : ℤ) < (2 : ℤ) ^ (p - 1) := by positivity
    rcases m2.lt_or_eq with hlt | heq
    · have := roundMag_fix (p := p) (roundEven (v / ulp p v)) (Int.log 2 v + 1 - (p : ℤ))
        (lt_of_lt_of_le hpos m1) hlt
      exact this
    · have e1 : roundMag p v = ((1 : ℤ) : ℝ) * (2 : ℝ) ^ (Int.log 2 v + 1) := by
        unfold roundMag
        rw [heq]
        unfold ulp
        push_cast
        rw [one_mul, ← zpow_natCast, ← zpow_add₀ (by norm_num : (2 : ℝ) ≠ 0)]
        congr 1
        ring
      have h1p : (1 : ℤ) < (2 : ℤ) ^ p := by
        calc (1 : ℤ) < 2 := by norm_num
          _ = 2 ^ 1 := by norm_num
          _ ≤ 2 ^ p := pow_le_pow_right₀ (by norm_num) hp
      rw [e1]
      exact roundMag_fix (p := p) 1 (Int.log 2 v + 1) (by norm_num) h1p

theorem roundNE_zero (p : ℕ) : roundNE p 0 = 0 := by
  unfold roundNE
  rw [if_pos (le_refl _), roundMag_zero]

theorem roundNE_of_nonneg (p : ℕ) {v : ℝ} (hv : 0 ≤ v) : roundNE p v = roundMag p v := by
  unfold roundNE
  rw [if_pos hv]

theorem roundNE_of_neg (p : ℕ) {v : ℝ} (hv : v < 0) : roundNE p v = -roundMag p (-v) := by
  unfold roundNE
  rw [if_neg (not_le.mpr hv)]

/-- Rounding commutes with negation. -/
theorem roundNE_neg (p : ℕ) (v : ℝ) : roundNE p (-v) = -roundNE p v := by
  rcases lt_trichotomy v 0 with h | h | h
  · rw [roundNE_of_nonneg p (by linarith : (0 : ℝ) ≤ -v), roundNE_of_neg p h, neg_neg]
  · rw [h, neg_zero, roundNE_zero, neg_zero]
  · rw [roundNE_of_neg p (by linarith : -v < 0), neg_neg, roundNE_of_nonneg p h.le]

theorem roundNE_nonneg (p : ℕ) {v : ℝ} (hv : 0 ≤ v) : 0 ≤ roundNE p v := by
  rw [roundNE_of_nonneg p hv]
  exact roundMag_nonneg p hv

theorem roundNE_nonpos (p : ℕ) {v : ℝ} (hv : v ≤ 0) : roundNE p v ≤ 0 := by
  have := roundNE_nonneg p (by linarith : (0 : ℝ) ≤ -v)
  rw [roundNE_neg] at this
  linarith

/-- Rounding is monotone. -/
theorem roundNE_mono {p : ℕ} (hp : 1 ≤ p) {v w : ℝ} (h : v ≤ w) : roundNE p v ≤ roundNE p w := by
  rcases le_or_lt 0 v with hv | hv
  · rw [roundNE_of_nonneg p hv, roundNE_of_nonneg p (hv.trans h)]
    exact roundMag_mono hp hv h
  · rcases le_or_lt 0 w with hw | hw
    · exact (roundNE_nonpos p hv.le).trans (roundNE_nonneg p hw)
    · rw [roundNE_of_neg p hv, roundNE_of_neg p hw]
      have := roundMag_mono hp (by linarith : (0 : ℝ) ≤ -w) (by linarith : -w ≤ -v)
      linarith

/-- Rounding a rounded value changes nothing. -/
theorem roundNE_idem {p : ℕ} (hp : 1 ≤ p) (v : ℝ) : roundNE p (roundNE p v) = roundNE p v := by
  rcases le_or_lt 0 v with hv | hv
  · rw [roundNE_of_nonneg p hv, roundNE_of_nonneg p (roundMag_nonneg p hv)]
    exact roundMag_idem hp hv
  · have h := roundNE_neg p v
    have h2 : roundNE p v = -roundNE p (-v) := by rw [h, neg_neg]
    rw [h2, roundNE_neg, roundNE_of_nonneg p (by linarith : (0 : ℝ) ≤ -v),
      roundNE_of_nonneg p (roundMag_nonneg p (by linarith : (0 : ℝ) ≤ -v)),
      roundMag_idem hp (by linarith : (0 : ℝ) ≤ -v)]

/-! ### Branches of the floating-point arctangent -/

theorem atan2_remaped_fl_origin (p : ℕ) : atan2_remaped_fl p 0 0 = some 0 := by
  simp [atan2_remaped_fl]

theorem atan2_remaped_fl_posX (p : ℕ) {x : ℝ} (hx : 0 < x) :
    atan2_remaped_fl p x 0 = some 0 := by
  simp [atan2_remaped_fl, hx]

theorem atan2_remaped_fl_q1 (p : ℕ) {x y : ℝ} (hx : 0 < x) (hy : 0 < y) :
    atan2_remaped_fl p x y = some (atan_fl p (roundNE p (y / x))) := by
  simp [atan2_remaped_fl, hx, hy, hx.ne', hy.ne']

theorem atan2_remaped_fl_posY (p : ℕ) {y : ℝ} (hy : 0 < y) :
    atan2_remaped_fl p 0 y = some (M_PI_2_fl p) := by
  simp [atan2_remaped_fl, hy, hy.ne']

theorem atan2_remaped_fl_q2 (p : ℕ) {x y : ℝ} (hx : x < 0) (hy : 0 < y) :
    atan2_remaped_fl p x y
      = some (roundNE p (M_PI_fl p + atan_fl p (roundNE p (y / x)))) := by
  simp [atan2_remaped_fl, hx, hy, hx.ne, hy.ne', hx.not_lt]

theorem atan2_remaped_fl_negX (p : ℕ) {x : ℝ} (hx : x < 0) :
    atan2_remaped_fl p x 0 = some (M_PI_fl p) := by
  simp [atan2_remaped_fl, hx, hx.ne, hx.not_lt]

theorem atan2_remaped_fl_q3 (p : ℕ) {x y : ℝ} (hx : x < 0) (hy : y < 0) :
    atan2_remaped_fl p x y
      = some (roundNE p (M_PI_fl p + atan_fl p (roundNE p (y / x)))) := by
  simp [atan2_remaped_fl, hx, hy, hx.ne, hy.ne, hx.not_lt, hy.not_lt]

theorem atan2_remaped_fl_negY (p : ℕ) {y : ℝ} (hy : y < 0) :
    atan2_remaped_fl p 0 y = some (roundNE p (3 * M_PI_2_fl p)) := by
  simp [atan2_remaped_fl, hy, hy.ne, hy.not_lt]

theorem atan2_remaped_fl_q4 (p : ℕ) {x y : ℝ} (hx : 0 < x) (hy : y < 0) :
    atan2_remaped_fl p x y
      = some (roundNE p (twoPi_fl p + atan_fl p (roundNE p (y / x)))) := by
  simp [atan2_remaped_fl, hx, hy, hx.ne', hy.ne, hx.not_lt, hy.not_lt]

/-- Small integers are values of the format. -/
theorem roundNE_two {p : ℕ} (hp : 1 ≤ p) : roundNE p 2 = 2 := by
  have h1p : (1 : ℤ) < (2 : ℤ) ^ p := by
    calc (1 : ℤ) < 2 := by norm_num
      _ = 2 ^ 1 := by norm_num
      _ ≤ 2 ^ p := pow_le_pow_right₀ (by norm_num) hp
  have := roundMag_fix (p := p) 1 1 (by norm_num) h1p
  rw [roundNE_of_nonneg p (by norm_num)]
  norm_num at this
  exact this

theorem roundNE_three {p : ℕ} (hp : 2 ≤ p) : roundNE p 3 = 3 := by
  have h3p : (3 : ℤ) < (2 : ℤ) ^ p := by
    calc (3 : ℤ) < 2 ^ 2 := by norm_num
      _ ≤ 2 ^ p := pow_le_pow_right₀ (by norm_num) hp
  have := roundMag_fix (p := p) 3 0 (by norm_num) h3p
  rw [roundNE_of_nonneg p (by norm_num)]
  norm_num at this
  exact this

theorem M_PI_fl_ge_three {p : ℕ} (hp : 2 ≤ p) : 3 ≤ M_PI_fl p := by
  have := roundNE_mono (p := p) (by omega)
    (show (3 : ℝ) ≤ 3.14159265358979323846 by norm_num)
  rwa [roundNE_three hp] at this

theorem M_PI_2_fl_le_two {p : ℕ} (hp : 1 ≤ p) : M_PI_2_fl p ≤ 2 := by
  have := roundNE_mono (p := p) hp
    (show (1.57079632679489661923 : ℝ) ≤ 2 by norm_num)
  rwa [roundNE_two hp] at this

theorem M_PI_2_fl_nonneg (p : ℕ) : 0 ≤ M_PI_2_fl p :=
  roundNE_nonneg p (by norm_num)

theorem M_PI_fl_le_twoPi_fl {p : ℕ} (hp : 2 ≤ p) : M_PI_fl p ≤ twoPi_fl p := by
  have h3 := M_PI_fl_ge_three hp
  have := roundNE_mono (p := p) (by omega) (show M_PI_fl p ≤ 2 * M_PI_fl p by linarith)
  unfold twoPi_fl
  rwa [show roundNE p (M_PI_fl p) = M_PI_fl p from roundNE_idem (by omega) _] at this

/-- The library arctangent keeps the sign of its argument and stays within
`M_PI`. -/
theorem atan_fl_bounds {p : ℕ} (hp : 2 ≤ p) (t : ℝ) :
    (0 ≤ t → 0 ≤ atan_fl p t) ∧ (t ≤ 0 → atan_fl p t ≤ 0) ∧
    -M_PI_fl p ≤ atan_fl p t ∧ atan_fl p t ≤ M_PI_fl p := by
  have h1p : 1 ≤ p := by omega
  have hpi : Real.pi / 2 ≤ 3.14159265358979323846 := by
    have := Real.pi_lt_four
    norm_num
    linarith
  refine ⟨fun ht => ?_, fun ht => ?_, ?_, ?_⟩
  · apply roundNE_nonneg
    have := Real.arctan_strictMono.monotone ht
    rwa [Real.arctan_zero] at this
  · apply roundNE_nonpos
    have := Real.arctan_strictMono.monotone ht
    rwa [Real.arctan_zero] at this
  · have h := Real.neg_pi_div_two_lt_arctan t
    have := roundNE_mono (p := p) h1p
      (show -(3.14159265358979323846 : ℝ) ≤ Real.arctan t by linarith)
    rwa [roundNE_neg] at this
  · have h := Real.arctan_lt_pi_div_two t
    exact roundNE_mono (p := p) h1p
      (show Real.arctan t ≤ (3.14159265358979323846 : ℝ) by linarith)

/-- Every value of the floating-point `atan2_remaped` lies between 0 and the
program's `2.0 * M_PI`, and there always is one. -/
theorem atan2_remaped_fl_mem {p : ℕ} (hp : 2 ≤ p) (x y : ℝ) :
    ∃ θ : ℝ, atan2_remaped_fl p x y = some θ ∧ 0 ≤ θ ∧ θ ≤ twoPi_fl p := by
  have h1p : 1 ≤ p := by omega
  have h3 := M_PI_fl_ge_three hp
  have hMT := M_PI_fl_le_twoPi_fl hp
  have hT : roundNE p (twoPi_fl p) = twoPi_fl p := roundNE_idem h1p _
  have h0 : roundNE p 0 = 0 := roundNE_zero p
  rcases lt_trichotomy x 0 with hx | hx | hx <;> rcases lt_trichotomy y 0 with hy | hy | hy
  · obtain ⟨a0, -, a1, a2⟩ := atan_fl_bounds hp (roundNE p (y / x))
    have ha := a0 (roundNE_nonneg p (div_pos_of_neg_of_neg hy hx).le)
    refine ⟨_, atan2_remaped_fl_q3 p hx hy, ?_, ?_⟩
    · exact roundNE_nonneg p (by linarith)
    · have := roundNE_mono (p := p) h1p
        (show M_PI_fl p + atan_fl p (roundNE p (y / x)) ≤ 2 * M_PI_fl p by linarith)
      exact this
  · subst hy
    exact ⟨_, atan2_remaped_fl_negX p hx, by linarith, hMT⟩
  · obtain ⟨-, a0, a1, a2⟩ := atan_fl_bounds hp (roundNE p (y / x))
    have ha := a0 (roundNE_nonpos p (div_neg_of_pos_of_neg hy hx).le)
    refine ⟨_, atan2_remaped_fl_q2 p hx hy, ?_, ?_⟩
    · exact roundNE_nonneg p (by linarith)
    · have := roundNE_mono (p := p) h1p
        (show M_PI_fl p + atan_fl p (roundNE p (y / x)) ≤ 2 * M_PI_fl p by linarith)
      exact this
  · subst hx
    refine ⟨_, atan2_remaped_fl_negY p hy, ?_, ?_⟩
    · exact roundNE_nonneg p (by linarith [M_PI_2_fl_nonneg p])
    · have := roundNE_mono (p := p) h1p
        (show 3 * M_PI_2_fl p ≤ 2 * M_PI_fl p by linarith [M_PI_2_fl_le_two h1p])
      exact this
  · subst hx; subst hy
    exact ⟨_, atan2_remaped_fl_origin p, le_refl 0, by linarith⟩
  · subst hx
    exact ⟨_, atan2_remaped_fl_posY p hy, M_PI_2_fl_nonneg p,
      by linarith [M_PI_2_fl_le_two h1p]⟩
  · obtain ⟨-, a0, a1, a2⟩ := atan_fl_bounds hp (roundNE p (y / x))
    have ha := a0 (roundNE_nonpos p (div_neg_of_neg_of_pos hy hx).le)
    refine ⟨_, atan2_remaped_fl_q4 p hx hy, ?_, ?_⟩
    · exact roundNE_nonneg p (by linarith)
    · have := roundNE_mono (p := p) h1p
        (show twoPi_fl p + atan_fl p (roundNE p (y / x)) ≤ twoPi_fl p by linarith)
      rwa [hT] at this
  · subst hy
    exact ⟨_, atan2_remaped_fl_posX p hx, le_refl 0, by linarith⟩
  · obtain ⟨a0, -, a1, a2⟩ := atan_fl_bounds hp (roundNE p (y / x))
    have ha := a0 (roundNE_nonneg p (div_pos hy hx).le)
    exact ⟨_, atan2_remaped_fl_q1 p hx hy, ha, by linarith⟩

/-- The arctangent of a number that is not negative does not exceed it. -/
theorem arctan_le_self {t : ℝ} (ht : 0 ≤ t) : Real.arctan t ≤ t := by
  rcases ht.eq_or_lt with h0 | h0
  · rw [← h0, Real.arctan_zero]
  · have h1 : 0 < Real.arctan t := by
      have := Real.arctan_strictMono h0
      rwa [Real.arctan_zero] at this
    have h2 := Real.lt_tan h1 (Real.arctan_lt_pi_div_two t)
    rw [Real.tan_arctan] at h2
    exact h2.le

/-- The library arctangent of a small value `-2 ^ (-70)` of the format lies
between that value and 0. -/
theorem atan_fl_tiny {p : ℕ} (hp : 1 ≤ p) :
    -(2 : ℝ) ^ (-70 : ℤ) ≤ atan_fl p (-(2 : ℝ) ^ (-70 : ℤ)) ∧
    atan_fl p (-(2 : ℝ) ^ (-70 : ℤ)) ≤ 0 := by
  have ht : (0 : ℝ) < (2 : ℝ) ^ (-70 : ℤ) := zpow_pos (by norm_num) _
  have h1p : (1 : ℤ) < (2 : ℤ) ^ p := by
    calc (1 : ℤ) < 2 := by norm_num
      _ = 2 ^ 1 := by norm_num
      _ ≤ 2 ^ p := pow_le_pow_right₀ (by norm_num) hp
  have hfix : roundNE p ((2 : ℝ) ^ (-70 : ℤ)) = (2 : ℝ) ^ (-70 : ℤ) := by
    have := roundMag_fix (p := p) 1 (-70) (by norm_num) h1p
    rw [roundNE_of_nonneg p ht.le]
    simpa using this
  unfold atan_fl
  rw [Real.arctan_neg, roundNE_neg]
  have hb0 : 0 ≤ Real.arctan ((2 : ℝ) ^ (-70 : ℤ)) := by
    have := Real.arctan_strictMono.monotone ht.le
    rwa [Real.arctan_zero] at this
  have hb1 := arctan_le_self ht.le
  have m0 := roundNE_nonneg p hb0
  have m1 := roundNE_mono (p := p) hp hb1
  rw [hfix] at m1
  constructor <;> linarith

/-- Adding a value between `-2 ^ (-70)` and 0 to the program's `2.0 * M_PI`
rounds back to `2.0 * M_PI`. -/
theorem twoPi_fl_absorbs {p : ℕ} (hp : 3 ≤ p) (hp2 : p ≤ 64) {a : ℝ}
    (ha1 : -(2 : ℝ) ^ (-70 : ℤ) ≤ a) (ha2 : a ≤ 0) :
    roundNE p (twoPi_fl p + a) = twoPi_fl p := by
  have h1p : 1 ≤ p := by omega
  have h7p : (7 : ℤ) < (2 : ℤ) ^ p := by
    calc (7 : ℤ) < 2 ^ 3 := by norm_num
      _ ≤ 2 ^ p := pow_le_pow_right₀ (by norm_num) hp
  have f72 : roundNE p (7 / 2) = 7 / 2 := by
    have := roundMag_fix (p := p) 7 (-1) (by norm_num) h7p
    rw [roundNE_of_nonneg p (by norm_num)]
    norm_num at this
    exact this
  have f6 : roundNE p 6 = 6 := by
    have := roundMag_fix (p := p) 3 1 (by norm_num) (by omega)
    rw [roundNE_of_nonneg p (by norm_num)]
    norm_num at this
    exact this
  have f7 : roundNE p 7 = 7 := by
    have := roundMag_fix (p := p) 7 0 (by norm_num) h7p
    rw [roundNE_of_nonneg p (by norm_num)]
    norm_num at this
    exact this
  have hM3 := M_PI_fl_ge_three (p := p) (by omega)
  have hM72 : M_PI_fl p ≤ 7 / 2 := by
    have := roundNE_mono (p := p) h1p
      (show (3.14159265358979323846 : ℝ) ≤ 7 / 2 by norm_num)
    rwa [f72] at this
  have hT6 : 6 ≤ twoPi_fl p := by
    have := roundNE_mono (p := p) h1p (show (6 : ℝ) ≤ 2 * M_PI_fl p by linarith)
    rwa [f6] at this
  have hT7 : twoPi_fl p ≤ 7 := by
    have := roundNE_mono (p := p) h1p (show 2 * M_PI_fl p ≤ (7 : ℝ) by linarith)
    rwa [f7] at this
  -- the program's `2.0 * M_PI` is an integer multiple of the unit of its binade
  have b1 : (2 : ℝ) ^ (2 : ℤ) ≤ 2 * M_PI_fl p := by norm_num; linarith
  have b2 : 2 * M_PI_fl p < (2 : ℝ) ^ ((2 : ℤ) + 1) := by norm_num; linarith
  have hTN : twoPi_fl p
      = (roundEven (2 * M_PI_fl p / (2 : ℝ) ^ ((2 : ℤ) + 1 - (p : ℤ))) : ℝ)
        * (2 : ℝ) ^ ((2 : ℤ) + 1 - (p : ℤ)) := by
    unfold twoPi_fl
    rw [roundNE_of_nonneg p (by linarith)]
    unfold roundMag
    rw [ulp_eq b1 b2]
  have ht70 : (0 : ℝ) < (2 : ℝ) ^ (-70 : ℤ) := zpow_pos (by norm_num) _
  have ht70' : (2 : ℝ) ^ (-70 : ℤ) < 1 := zpow_lt_one_of_neg₀ (by norm_num) (by norm_num)
  have c1 : (2 : ℝ) ^ (2 : ℤ) ≤ twoPi_fl p + a := by norm_num; linarith
  have c2 : twoPi_fl p + a < (2 : ℝ) ^ ((2 : ℤ) + 1) := by norm_num; linarith
  have hu : (0 : ℝ) < (2 : ℝ) ^ ((2 : ℤ) + 1 - (p : ℤ)) := zpow_pos (by norm_num) _
  rw [roundNE_of_nonneg p (by linarith)]
  rw [roundMag_eval 2 (roundEven (2 * M_PI_fl p / (2 : ℝ) ^ ((2 : ℤ) + 1 - (p : ℤ)))) c1 c2]
  · exact hTN.symm
  · have e : (twoPi_fl p + a) / (2 : ℝ) ^ ((2 : ℤ) + 1 - (p : ℤ))
        - (roundEven (2 * M_PI_fl p / (2 : ℝ) ^ ((2 : ℤ) + 1 - (p : ℤ))) : ℝ)
        = a / (2 : ℝ) ^ ((2 : ℤ) + 1 - (p : ℤ)) := by
      rw [add_div]
      nth_rewrite 1 [hTN]
      field_simp
      ring
    rw [e, abs_div, abs_of_pos hu, div_lt_iff₀ hu, abs_of_nonpos ha2]
    have hle : (2 : ℝ) ^ (-68 : ℤ) ≤ (2 : ℝ) ^ ((2 : ℤ) + 1 - (p : ℤ)) :=
      zpow_le_zpow_right₀ (by norm_num) (by omega)
    have h68 : (2 : ℝ) ^ (-68 : ℤ) = 4 * (2 : ℝ) ^ (-70 : ℤ) := by
      rw [show (-68 : ℤ) = 2 + (-70) by norm_num, zpow_add₀ (by norm_num : (2 : ℝ) ≠ 0)]
      norm_num
    rw [h68] at hle
    generalize (2 : ℝ) ^ ((2 : ℤ) + 1 - (p : ℤ)) = U at hle
    generalize (2 : ℝ) ^ (-70 : ℤ) = t at hle ha1 ht70
    linarith

/-- With the 24-bit significand of a 32-bit `double`, `M_PI` is
`13176795 / 2 ^ 22`. -/
theorem M_PI_fl_24 : M_PI_fl 24 = 13176795 / 4194304 := by
  unfold M_PI_fl
  rw [roundNE_of_nonneg 24 (by norm_num)]
  rw [roundMag_eval 1 13176795 (by norm_num) (by norm_num) (by norm_num [abs_lt])]
  norm_num

/-- With the 24-bit significand of a 32-bit `double`, `2.0 * M_PI` is
`13176795 / 2 ^ 21`, above the real number `2 * pi`. -/
theorem twoPi_fl_24 : twoPi_fl 24 = 13176795 / 2097152 ∧ 2 * Real.pi < twoPi_fl 24 := by
  have h : twoPi_fl 24 = 13176795 / 2097152 := by
    unfold twoPi_fl
    rw [M_PI_fl_24, roundNE_of_nonneg 24 (by norm_num)]
    have := roundMag_fix (p := 24) 13176795 (-21) (by norm_num) (by norm_num)
    norm_num at this
    norm_num
    exact this
  refine ⟨h, ?_⟩
  rw [h]
  have := Real.pi_lt_d20
  norm_num at this ⊢
  linarith

/-- In the fourth quadrant, at `x = 1` and `y = -2 ^ (-70)`, the
floating-point `atan2_remaped` returns the program's `2.0 * M_PI` itself. -/
theorem atan2_remaped_fl_tiny {p : ℕ} (hp : 3 ≤ p) (hp2 : p ≤ 64) :
    atan2_remaped_fl p 1 (-(2 : ℝ) ^ (-70 : ℤ)) = some (twoPi_fl p) := by
  have h1p : 1 ≤ p := by omega
  have ht : (0 : ℝ) < (2 : ℝ) ^ (-70 : ℤ) := zpow_pos (by norm_num) _
  have h1 : (1 : ℤ) < (2 : ℤ) ^ p := by
    calc (1 : ℤ) < 2 := by norm_num
      _ = 2 ^ 1 := by norm_num
      _ ≤ 2 ^ p := pow_le_pow_right₀ (by norm_num) h1p
  have hfix : roundNE p (-(2 : ℝ) ^ (-70 : ℤ)) = -(2 : ℝ) ^ (-70 : ℤ) := by
    have := roundMag_fix (p := p) 1 (-70) (by norm_num) h1
    rw [roundNE_neg, roundNE_of_nonneg p ht.le]
    simpa using this
  rw [atan2_remaped_fl_q4 p (by norm_num) (by linarith), div_one, hfix]
  obtain ⟨a1, a2⟩ := atan_fl_tiny (p := p) h1p
  rw [twoPi_fl_absorbs hp hp2 a1 a2]

/-! ## Taylor bounds of the arctangent -/

/-- Evaluation of `roundNE` at a positive number whose binade and nearest
integer multiple of the unit are known. -/
theorem roundNE_eval {p : ℕ} {v : ℝ} (e n : ℤ)
    (h1 : (2 : ℝ) ^ e ≤ v) (h2 : v < (2 : ℝ) ^ (e + 1))
    (hn : |v / (2 : ℝ) ^ (e + 1 - (p : ℤ)) - n| < 1 / 2) :
    roundNE p v = (n : ℝ) * (2 : ℝ) ^ (e + 1 - (p : ℤ)) := by
  have hv : 0 < v := lt_of_lt_of_le (zpow_pos (by norm_num) e) h1
  rw [roundNE_of_nonneg p hv.le]
  exact roundMag_eval e n h1 h2 hn

/-- With the 53-bit significand of an IEEE double, `M_PI` is
`884279719003555 / 2 ^ 48`. -/
theorem M_PI_fl_53 : M_PI_fl 53 = 884279719003555 / 281474976710656 := by
  unfold M_PI_fl
  rw [roundNE_eval 1 7074237752028440 (by norm_num) (by norm_num) (by norm_num [abs_lt])]
  norm_num

/-- With the 53-bit significand of an IEEE double, `2.0 * M_PI` is
`884279719003555 / 2 ^ 47`. -/
theorem twoPi_fl_53 : twoPi_fl 53 = 884279719003555 / 140737488355328 := by
  unfold twoPi_fl
  rw [M_PI_fl_53]
  rw [roundNE_eval 2 7074237752028440 (by norm_num) (by norm_num) (by norm_num [abs_lt])]
  norm_num

/-! ## The full-circle angle in floating point -/

/-- C8, the claim as stated fails in floating point: at the fourth-quadrant
point `x = 1`, `y = -2 ^ (-70)` the sum `2.0 * M_PI + atan(y / x)` rounds to
`2.0 * M_PI`. With the 24-bit significand of the 32-bit `double` of the
target this value, `13176795 / 2 ^ 21`, is above `2 * pi`, so the returned
angle is not below `2 * pi`; with the 53-bit significand of an IEEE double
the returned angle is the program's `2.0 * M_PI` as well. -/
theorem atan2_remaped_fl_reaches_two_pi :
    atan2_remaped_fl 24 1 (-(2 : ℝ) ^ (-70 : ℤ)) = some (13176795 / 2097152) ∧
    2 * Real.pi < 13176795 / 2097152 ∧
    ¬ (∃ θ : ℝ, atan2_remaped_fl 24 1 (-(2 : ℝ) ^ (-70 : ℤ)) = some θ ∧
        0 ≤ θ ∧ θ < 2 * Real.pi) ∧
    atan2_remaped_fl 53 1 (-(2 : ℝ) ^ (-70 : ℤ)) = some (twoPi_fl 53) ∧
    twoPi_fl 53 = 884279719003555 / 140737488355328 := by
  obtain ⟨hT, hgt⟩ := twoPi_fl_24
  have h24 := atan2_remaped_fl_tiny (p := 24) (by norm_num) (by norm_num)
  rw [hT] at h24 hgt
  refine ⟨h24, hgt, ?_, atan2_remaped_fl_tiny (p := 53) (by norm_num) (by norm_num),
    twoPi_fl_53⟩
  rintro ⟨θ, h, -, hlt⟩
  rw [h24] at h
  have e : (13176795 / 2097152 : ℝ) = θ := Option.some.inj h
  rw [← e] at hlt
  exact absurd hgt (not_lt.mpr hlt.le)

/-- C8, amended: evaluated in binary floating point of any precision
`p ≥ 2`, for all real `x` and `y`, `atan2_remaped` returns a value `θ` with
`0 ≤ θ ≤ 2.0 * M_PI`, the bound being the program's own rounded constant,
whichever of the four quadrants, four half-axes or the origin the point lies
in; the value is never negative and never above `2.0 * M_PI`. -/
theorem atan2_remaped_fl_range (p : ℕ) (hp : 2 ≤ p) (x y : ℝ) :
    ∃ θ : ℝ, atan2_remaped_fl p x y = some θ ∧ (0 ≤ θ ∧ θ ≤ twoPi_fl p) ∧
      ¬ θ < 0 ∧ ¬ twoPi_fl p < θ := by
  obtain ⟨θ, h, h0, h1⟩ := atan2_remaped_fl_mem hp x y
  exact ⟨θ, h, ⟨h0, h1⟩, not_lt.mpr h0, not_lt.mpr h1⟩

/-- Witness for C8, amended, with the 24-bit significand at the
third-quadrant point `(-3, -4)`. -/
theorem atan2_remaped_fl_range_witness :
    2 ≤ 24 ∧
    ∃ θ : ℝ, atan2_remaped_fl 24 (-3) (-4) = some θ ∧ (0 ≤ θ ∧ θ ≤ twoPi_fl 24) ∧
      ¬ θ < 0 ∧ ¬ twoPi_fl 24 < θ :=
  ⟨by norm_num, atan2_remaped_fl_range 24 (by norm_num) (-3) (-4)⟩

end TLV493D
